import Mathlib

/-!
Shallow embedding of the BOCU-1 codec (graydon/bocu1), translated from the
Rust sources:

* `trailing_byte_selection.rs` — the trailing-byte mapping,
* `util.rs` — the Euclidean division/modulus helpers (`Euc for i32`),
* `variable_length_code.rs` — the variable-length delta code,
* `delta_encoding.rs` — the stateful delta coder,
* `iter.rs` — the sequence-level encode/decode adapters,
* `packed.rs` — the packed scalar codec.

Bytes are modelled as `Nat` (with explicit `< 256` bounds where they matter),
code points as `Nat` Unicode scalar values, and the `i32` arithmetic as `Int`
(all intermediate values in the codec are far inside the `i32` range, so no
wrap-around modelling is needed; Rust's truncating `/` and `%` are `Int.tdiv`
and `Int.tmod`). Fallible operations return `Option`/`Except`; `Option.none`
at the outer layer marks a Rust `panic!`/`assert!` failure.
-/

namespace Bocu1

/-- Unicode scalar values: `[0, 0xD800) ∪ [0xE000, 0x110000)`, the values of
the Rust `char` type. -/
def ScalarValue (n : Nat) : Prop :=
  n < 0xD800 ∨ (0xE000 ≤ n ∧ n < 0x110000)

instance (n : Nat) : Decidable (ScalarValue n) := by
  unfold ScalarValue; infer_instance

/-- Decode-time errors, from `iter.rs` (`DecodeError`). -/
inductive DecodeError : Type where
  | TruncatedInput : DecodeError
  | TrailByteOutOfRange : Nat → DecodeError
  | CharDeltaOutOfRange : Nat → Int → DecodeError
deriving DecidableEq, Repr

deriving instance DecidableEq for Except

/-! ## Part 3 of the pipeline: trailing-byte selection -/

/-- The 13 byte values BOCU-1 never uses in trail position
(`EXCLUDED_CODE_BYTES` in `trailing_byte_selection.rs`). -/
def excludedCodeBytes : List Nat :=
  [0x00, 0x07, 0x08, 0x09, 0x0A, 0x0B, 0x0C, 0x0D, 0x0E, 0x0F, 0x1A, 0x1B, 0x20]

/-- Number of admissible trail values: `256 - 13 = 243`. -/
def nTrailValues : Int := 256 - 13

/-- The map from linear trail values `[0, 243)` to trail bytes, from
`trail_to_byte` in `trailing_byte_selection.rs` (the source asserts
`b < 243`; the ranges mirror the Rust `match`). -/
def trail_to_byte (b : Nat) : Nat :=
  if b ≤ 0x05 then b + 1
  else if b ≤ 0x0F then b + 1 + 9
  else if b ≤ 0x13 then b + 1 + 9 + 2
  else b + 1 + 9 + 2 + 1

/-- The partial inverse, from `byte_to_trail` in `trailing_byte_selection.rs`:
accepts exactly the image of `trail_to_byte` and rejects the 13 excluded
bytes. -/
def byte_to_trail (b : Nat) : Except DecodeError Nat :=
  if 0x01 ≤ b ∧ b ≤ 0x06 then .ok (b - 1)
  else if 0x10 ≤ b ∧ b ≤ 0x19 then .ok (b - 1 - 9)
  else if 0x1C ≤ b ∧ b ≤ 0x1F then .ok (b - 1 - 9 - 2)
  else if 0x21 ≤ b ∧ b ≤ 0xFF then .ok (b - 1 - 9 - 2 - 1)
  else .error (.TrailByteOutOfRange b)

/-! ## Euclidean division helpers, from `util.rs` (`impl Euc for i32`).
Rust's `/` and `%` on `i32` truncate toward zero, i.e. `Int.tdiv` and
`Int.tmod`. -/

/-- `Euc::div_euc` from `util.rs`. -/
def div_euc (a rhs : Int) : Int :=
  let q := a.tdiv rhs
  if a.tmod rhs < 0 then
    if rhs > 0 then q - 1 else q + 1
  else q

/-- `Euc::mod_euc` from `util.rs`. -/
def mod_euc (a rhs : Int) : Int :=
  let r := a.tmod rhs
  if r < 0 then
    if rhs < 0 then r - rhs else r + rhs
  else r

/-! ## Part 2 of the pipeline: the variable-length code -/

/-- Range-table row selection of `encode_delta` in `variable_length_code.rs`:
maps a delta to `(offset, lead byte base, code length)`; `none` models the
`panic!` for deltas outside `[-0x10FF9F, +0x10FFBF]`. -/
def encode_row (delta : Int) : Option (Int × Nat × Nat) :=
  if -0x10FF9F ≤ delta ∧ delta ≤ -0x2DD0D then some (-0x2DD0C, 0x22, 4)
  else if -0x2DD0C ≤ delta ∧ delta ≤ -0x2912 then some (-0x2911, 0x25, 3)
  else if -0x2911 ≤ delta ∧ delta ≤ -0x41 then some (-0x40, 0x50, 2)
  else if -0x40 ≤ delta ∧ delta ≤ 0x3F then some (0, 0x90, 1)
  else if 0x40 ≤ delta ∧ delta ≤ 0x2910 then some (0x40, 0xD0, 2)
  else if 0x2911 ≤ delta ∧ delta ≤ 0x2DD0B then some (0x2911, 0xFB, 3)
  else if 0x2DD0C ≤ delta ∧ delta ≤ 0x10FFBF then some (0x2DD0C, 0xFE, 4)
  else none

/-- The trail-byte loop of `encode_delta`: `k` iterations of
`m = mod_euc(d, 243); d = div_euc(d, 243)`, writing `trail_to_byte m` into the
buffer from the last position backwards.  Returns the final `d` together with
the trail bytes in stream order. -/
def trailLoop (d : Int) : Nat → Int × List Nat
  | 0 => (d, [])
  | k + 1 =>
    let m := mod_euc d nTrailValues
    let d2 := div_euc d nTrailValues
    let (df, ts) := trailLoop d2 k
    (df, ts ++ [trail_to_byte m.toNat])

/-- `encode_delta` from `variable_length_code.rs`: one lead byte (adjusted by
the remaining quotient) followed by `len - 1` trail bytes. -/
def encode_delta (delta : Int) : Option (List Nat) :=
  match encode_row delta with
  | none => none
  | some (offset, lead, len) =>
    let (d, ts) := trailLoop (delta - offset) (len - 1)
    some (((lead : Int) + d).toNat :: ts)

/-- The non-coding reset byte (`LEAD_BYTE_RESET`). -/
def leadByteReset : Nat := 0xFF

/-- Largest self-encoded lead byte (`LEAD_BYTE_ASCII_SP`). -/
def leadByteAsciiSp : Nat := 0x20

/-- Lead-byte classification of `decode_delta` in `variable_length_code.rs`:
maps a lead byte to `(offset, lead byte base, code length)`; `none` models the
asserts (`lead > 0x20`, `lead != 0xFF`) and the unreachable `panic!`. -/
def lead_row (lead : Nat) : Option (Int × Nat × Nat) :=
  if lead = 0x21 then some (-0x2DD0C, 0x22, 4)
  else if 0x22 ≤ lead ∧ lead ≤ 0x24 then some (-0x2911, 0x25, 3)
  else if 0x25 ≤ lead ∧ lead ≤ 0x4F then some (-0x40, 0x50, 2)
  else if 0x50 ≤ lead ∧ lead ≤ 0xCF then some (0, 0x90, 1)
  else if 0xD0 ≤ lead ∧ lead ≤ 0xFA then some (0x40, 0xD0, 2)
  else if 0xFB ≤ lead ∧ lead ≤ 0xFD then some (0x2911, 0xFB, 3)
  else if lead = 0xFE then some (0x2DD0C, 0xFE, 4)
  else none

/-- The trail-byte accumulation loop of `decode_delta`:
`delta = delta * 243 + byte_to_trail(b[i])?`. -/
def trailDigits (acc : Int) : List Nat → Except DecodeError Int
  | [] => .ok acc
  | b :: bs =>
    match byte_to_trail b with
    | .error e => .error e
    | .ok t => trailDigits (acc * nTrailValues + (t : Int)) bs

/-- `decode_delta` from `variable_length_code.rs`, with the non-empty input
slice split as lead byte plus rest.  The outer `Option` is `none` exactly
when the Rust code would hit an `assert!`/`panic!` (lead byte `≤ 0x20` or
`0xFF`). -/
def decode_delta (lead : Nat) (rest : List Nat) :
    Option (Except DecodeError (Int × List Nat)) :=
  match lead_row lead with
  | none => none
  | some (offset, base, len) =>
    if 1 + rest.length < len then some (.error .TruncatedInput)
    else
      match trailDigits ((lead : Int) - (base : Int)) (rest.take (len - 1)) with
      | .error e => some (.error e)
      | .ok acc => some (.ok (acc + offset, rest.drop (len - 1)))

/-! ## Part 1 of the pipeline: the stateful delta coder (`delta_encoding.rs`) -/

/-- `normalized_prev` from `delta_encoding.rs`: snap the previous code point
to the middle of a script-specific block.  `cu32 & 0xffff_ff80` clears the low
seven bits, i.e. `c / 128 * 128` for scalar values. -/
def normalized_prev (curr : Nat) : Nat :=
  if 0x3040 ≤ curr ∧ curr ≤ 0x309F then 0x3070
  else if 0x4E00 ≤ curr ∧ curr ≤ 0x9FA5 then 0x7711
  else if 0xAC00 ≤ curr ∧ curr ≤ 0xD7A3 then 0xC1D1
  else curr / 128 * 128 + 0x40

/-- `INITIAL_PREVIOUS_STATE`. -/
def initialPreviousState : Nat := 0x40

/-- `ASCII_SP`. -/
def asciiSp : Nat := 0x20

/-- `DeltaCoder::encode_char`: returns the encoded chunk together with the
updated `prev` state; `none` models the downstream `panic!` for an
out-of-range delta. -/
def encode_char (prev curr : Nat) : Option (List Nat × Nat) :=
  if curr ≤ asciiSp then
    some ([curr], if curr ≠ asciiSp then initialPreviousState else prev)
  else
    match encode_delta ((curr : Int) - (prev : Int)) with
    | none => none
    | some chunk => some (chunk, normalized_prev curr)

/-- `std::char::from_u32` on the `u32` cast of an `i32` candidate: the cast
wraps modulo `2^32` and conversion succeeds exactly on Unicode scalar
values. -/
def char_from_u32 (candidate : Int) : Option Nat :=
  let n := (candidate % (2 ^ 32 : Int)).toNat
  if ScalarValue n then some n else none

/-- `DeltaCoder::decode_char`, with the non-empty byte slice split as
`init :: rest`.  Returns the updated `prev` state paired with the result;
the source mutates `self.prev` only where this function returns an updated
value, so on errors the original `prev` is returned.  The outer `Option` is
`none` exactly on the unreachable `panic!` paths. -/
def decode_char (prev init : Nat) (rest : List Nat) :
    Option (Nat × Except DecodeError (Option Nat × List Nat)) :=
  if init = leadByteReset then
    some (prev, .ok (none, rest))
  else if init ≤ leadByteAsciiSp then
    if init ≠ leadByteAsciiSp then
      some (initialPreviousState, .ok (some init, rest))
    else
      some (prev, .ok (some init, rest))
  else
    match decode_delta init rest with
    | none => none
    | some (.error e) => some (prev, .error e)
    | some (.ok (delta, rest2)) =>
      let candidate : Int := (prev : Int) + delta
      match char_from_u32 candidate with
      | none => some (prev, .error (.CharDeltaOutOfRange prev delta))
      | some ch => some (normalized_prev ch, .ok (some ch, rest2))

/-! ## Sequence-level adapters (`iter.rs`) -/

/-- `EncodedChunkIter` run to completion: the list of per-character chunks
and the final `prev` state, starting from `prev`. -/
def chunkSeq (prev : Nat) : List Nat → Option (List (List Nat) × Nat)
  | [] => some ([], prev)
  | c :: cs =>
    match encode_char prev c with
    | none => none
    | some (ch, p2) =>
      match chunkSeq p2 cs with
      | none => none
      | some (chs, pf) => some (ch :: chs, pf)

/-- `DrainEncodedChunkIter` over `EncodedChunkIter` run to completion: the
encoded byte stream and the final `prev` state. -/
def encodeSeq (prev : Nat) : List Nat → Option (List Nat × Nat)
  | [] => some ([], prev)
  | c :: cs =>
    match encode_char prev c with
    | none => none
    | some (ch, p2) =>
      match encodeSeq p2 cs with
      | none => none
      | some (bs, pf) => some (ch ++ bs, pf)

/-- Encoding from a fresh coder (`prev = U+0040`), bytes only: the
`encode_bocu1` surface. -/
def encodeTop (s : List Nat) : Option (List Nat) :=
  (encodeSeq initialPreviousState s).map Prod.fst

/-- Prepend a decoded character to a decode result. -/
def consChar (c : Nat) : Option (Except DecodeError (List Nat)) →
    Option (Except DecodeError (List Nat))
  | none => none
  | some (.error e) => some (.error e)
  | some (.ok cs) => some (.ok (c :: cs))

/-- Prepend a list of decoded characters to a decode result. -/
def consAll (cs : List Nat) (r : Option (Except DecodeError (List Nat))) :
    Option (Except DecodeError (List Nat)) :=
  cs.foldr consChar r

/-- `DecodeResultIter` run to completion, collecting decoded characters (an
error aborts the collection; the fuel argument only serves termination and
any value at least the byte count is enough, since every step consumes at
least one byte). -/
def decodeList : Nat → Nat → List Nat → Option (Except DecodeError (List Nat))
  | _, _, [] => some (.ok [])
  | 0, _, _ :: _ => none
  | fuel + 1, prev, b :: bs =>
    match decode_char prev b bs with
    | none => none
    | some (_, .error e) => some (.error e)
    | some (p2, .ok (none, rest)) => decodeList fuel p2 rest
    | some (p2, .ok (some c, rest)) => consChar c (decodeList fuel p2 rest)

/-- Decoding from a fresh coder (`prev = U+0040`): the `decode_bocu1`
surface. -/
def decodeSeq (bs : List Nat) : Option (Except DecodeError (List Nat)) :=
  decodeList bs.length initialPreviousState bs

/-- One call to `DecodeResultIter::next` (`iter.rs`): returns the updated
`prev` state, the remaining slice, and the yielded item (`none` for end of
input).  On `Err` the slice field keeps the whole input: the iterator does
not advance.  Fuel as in `decodeList`. -/
def resultIterNext : Nat → Nat → List Nat →
    Option (Nat × List Nat × Option (Except DecodeError Nat))
  | _, prev, [] => some (prev, [], none)
  | 0, _, _ :: _ => none
  | fuel + 1, prev, b :: bs =>
    match decode_char prev b bs with
    | none => none
    | some (p2, .error e) => some (p2, b :: bs, some (.error e))
    | some (p2, .ok (none, rest)) => resultIterNext fuel p2 rest
    | some (p2, .ok (some c, rest)) => some (p2, rest, some (.ok c))

/-- A run of `k` reset bytes `0xFF`. -/
def ffs (k : Nat) : List Nat :=
  List.replicate k leadByteReset

/-- Insert runs of `0xFF` bytes at chunk boundaries: `ns` gives the number of
reset bytes inserted before each chunk (and after the last). -/
def insertFFs : List Nat → List (List Nat) → List Nat
  | [], [] => []
  | [], ch :: chs => ch ++ insertFFs [] chs
  | n :: ns, [] => ffs n ++ insertFFs ns []
  | n :: ns, ch :: chs => ffs n ++ ch ++ insertFFs ns chs

/-! ## Packed scalar codec (`packed.rs`) -/

/-- The trailing zero-padding shifts of `pack`: `while n != 0 { tmp <<= 8;
n -= 1 }`, with the shift wrapping at the scalar width of `w` bytes. -/
def padShift (w : Nat) : Nat → Nat → Nat
  | tmp, 0 => tmp
  | tmp, n + 1 => padShift w (tmp * 256 % 2 ^ (8 * w)) n

/-- The byte loop of `pack`: fold the encoded bytes into the accumulator,
high byte first, failing when more than `w` bytes arrive. -/
def packBytes (w : Nat) : Nat → Nat → List Nat → Option Nat
  | tmp, n, [] => some (padShift w tmp n)
  | tmp, n, b :: bs =>
    if n = 0 then none
    else packBytes w ((tmp * 256 + b) % 2 ^ (8 * w)) (n - 1) bs

/-- `pack` from `packed.rs`, for a scalar type of `w` bytes: encode the
input and pack the byte stream left-aligned into an unsigned scalar. -/
def pack (w : Nat) (s : List Nat) : Option Nat :=
  match encodeSeq initialPreviousState s with
  | none => none
  | some (bs, _) => packBytes w 0 w bs

/-! ## Auxiliary notions used by the statements and proofs -/

/-- Reachable `prev` states: every state the coder can hold lies in
`[0x40, 0x10FFC0]` (the initial state and all attractor values). -/
def prevInv (p : Nat) : Prop :=
  0x40 ≤ p ∧ p ≤ 0x10FFC0

/-- Byte lists that differ at some position after a common prefix, the
smaller byte on the left.  Appending anything on the right of either list
preserves this relation, so it captures comparison decided strictly inside
the lists. -/
def StrongLt (l1 l2 : List Nat) : Prop :=
  ∃ p b1 b2 r1 r2, b1 < b2 ∧ l1 = p ++ b1 :: r1 ∧ l2 = p ++ b2 :: r2

/-- Strict memcmp order on byte lists: either a strict proper-prefix or a
first differing byte. -/
def BytesLt (l1 l2 : List Nat) : Prop :=
  (∃ r, r ≠ [] ∧ l2 = l1 ++ r) ∨ StrongLt l1 l2

/-- Big-endian value of a byte list on top of an accumulator. -/
def bvAux (tmp : Nat) (l : List Nat) : Nat :=
  l.foldl (fun a b => a * 256 + b) tmp

/-! ## The Euclidean helpers compute Euclidean division and modulus -/

theorem tmod_neg_left (a b : Int) : (-a).tmod b = -(a.tmod b) := by
  rw [Int.tmod_def, Int.tmod_def, Int.neg_tdiv]
  ring

theorem tmod_range243 (a : Int) : -243 < a.tmod 243 ∧ a.tmod 243 < 243 := by
  refine ⟨?_, Int.tmod_lt_of_pos a (by norm_num)⟩
  rcases le_or_lt 0 a with h | h
  · have := Int.tmod_nonneg 243 h
    omega
  · have h2 : (0 : Int) ≤ -a := by omega
    have h3 := Int.tmod_lt_of_pos (-a) (show (0 : Int) < 243 by norm_num)
    rw [tmod_neg_left] at h3
    omega

theorem tmod_sign243 (a : Int) :
    (0 ≤ a → 0 ≤ a.tmod 243) ∧ (a < 0 → a.tmod 243 ≤ 0) := by
  constructor
  · exact fun h => Int.tmod_nonneg 243 h
  · intro h
    have h2 : (0 : Int) ≤ -a := by omega
    have h3 := Int.tmod_nonneg 243 h2
    rw [tmod_neg_left] at h3
    omega

theorem nTrailValues_eq : nTrailValues = 243 := by norm_num [nTrailValues]

theorem div_euc_eq (a : Int) : div_euc a nTrailValues = a / 243 := by
  rw [nTrailValues_eq]
  have h1 := Int.tdiv_add_tmod a 243
  have h2 := tmod_range243 a
  dsimp only [div_euc]
  split_ifs <;> omega

theorem mod_euc_eq (a : Int) : mod_euc a nTrailValues = a % 243 := by
  rw [nTrailValues_eq]
  have h1 := Int.tdiv_add_tmod a 243
  have h2 := tmod_range243 a
  dsimp only [mod_euc]
  split_ifs <;> omega

/-! ## Trailing-byte mapping facts -/

theorem trail_to_byte_mono {m1 m2 : Nat} (h : m1 < m2) :
    trail_to_byte m1 < trail_to_byte m2 := by
  unfold trail_to_byte
  split_ifs <;> omega

theorem trail_to_byte_range {m : Nat} (h : m < 243) :
    1 ≤ trail_to_byte m ∧ trail_to_byte m ≤ 0xFF := by
  unfold trail_to_byte
  split_ifs <;> omega

theorem trail_to_byte_not_excluded {m : Nat} (h : m < 243) :
    trail_to_byte m ∉ excludedCodeBytes := by
  unfold trail_to_byte excludedCodeBytes
  split_ifs <;> simp <;> omega

theorem byte_to_trail_trail_to_byte {m : Nat} (h : m < 243) :
    byte_to_trail (trail_to_byte m) = .ok m := by
  unfold trail_to_byte
  split_ifs with g1 g2 g3 <;>
    (unfold byte_to_trail
     split_ifs <;> first
       | exact congrArg Except.ok (by omega)
       | (exfalso; omega))

/-! ## Closed forms for the encoder loop -/

theorem trailLoop_zero (d : Int) : trailLoop d 0 = (d, []) := rfl

theorem trailLoop_one (d : Int) :
    trailLoop d 1 = (d / 243, [trail_to_byte ((d % 243).toNat)]) := by
  simp [trailLoop, div_euc_eq, mod_euc_eq]

theorem trailLoop_two (d : Int) :
    trailLoop d 2 = (d / 243 / 243,
      [trail_to_byte ((d / 243 % 243).toNat), trail_to_byte ((d % 243).toNat)]) := by
  simp [trailLoop, trailLoop_one, div_euc_eq, mod_euc_eq]

theorem trailLoop_three (d : Int) :
    trailLoop d 3 = (d / 243 / 243 / 243,
      [trail_to_byte ((d / 243 / 243 % 243).toNat),
       trail_to_byte ((d / 243 % 243).toNat),
       trail_to_byte ((d % 243).toNat)]) := by
  simp [trailLoop, trailLoop_two, div_euc_eq, mod_euc_eq]

/-! ## Row selection -/

theorem encode_row_4n {delta : Int} (h1 : -0x10FF9F ≤ delta) (h2 : delta ≤ -0x2DD0D) :
    encode_row delta = some (-0x2DD0C, 0x22, 4) := by
  unfold encode_row
  split_ifs <;> first | rfl | (exfalso; omega)

theorem encode_row_3n {delta : Int} (h1 : -0x2DD0C ≤ delta) (h2 : delta ≤ -0x2912) :
    encode_row delta = some (-0x2911, 0x25, 3) := by
  unfold encode_row
  split_ifs <;> first | rfl | (exfalso; omega)

theorem encode_row_2n {delta : Int} (h1 : -0x2911 ≤ delta) (h2 : delta ≤ -0x41) :
    encode_row delta = some (-0x40, 0x50, 2) := by
  unfold encode_row
  split_ifs <;> first | rfl | (exfalso; omega)

theorem encode_row_1 {delta : Int} (h1 : -0x40 ≤ delta) (h2 : delta ≤ 0x3F) :
    encode_row delta = some (0, 0x90, 1) := by
  unfold encode_row
  split_ifs <;> first | rfl | (exfalso; omega)

theorem encode_row_2p {delta : Int} (h1 : 0x40 ≤ delta) (h2 : delta ≤ 0x2910) :
    encode_row delta = some (0x40, 0xD0, 2) := by
  unfold encode_row
  split_ifs <;> first | rfl | (exfalso; omega)

theorem encode_row_3p {delta : Int} (h1 : 0x2911 ≤ delta) (h2 : delta ≤ 0x2DD0B) :
    encode_row delta = some (0x2911, 0xFB, 3) := by
  unfold encode_row
  split_ifs <;> first | rfl | (exfalso; omega)

theorem encode_row_4p {delta : Int} (h1 : 0x2DD0C ≤ delta) (h2 : delta ≤ 0x10FFBF) :
    encode_row delta = some (0x2DD0C, 0xFE, 4) := by
  unfold encode_row
  split_ifs <;> first | rfl | (exfalso; omega)

theorem lead_row_4n {lead : Nat} (h1 : lead = 0x21) :
    lead_row lead = some (-0x2DD0C, 0x22, 4) := by
  unfold lead_row
  split_ifs <;> first | rfl | (exfalso; omega)

theorem lead_row_3n {lead : Nat} (h1 : 0x22 ≤ lead) (h2 : lead ≤ 0x24) :
    lead_row lead = some (-0x2911, 0x25, 3) := by
  unfold lead_row
  split_ifs <;> first | rfl | (exfalso; omega)

theorem lead_row_2n {lead : Nat} (h1 : 0x25 ≤ lead) (h2 : lead ≤ 0x4F) :
    lead_row lead = some (-0x40, 0x50, 2) := by
  unfold lead_row
  split_ifs <;> first | rfl | (exfalso; omega)

theorem lead_row_1 {lead : Nat} (h1 : 0x50 ≤ lead) (h2 : lead ≤ 0xCF) :
    lead_row lead = some (0, 0x90, 1) := by
  unfold lead_row
  split_ifs <;> first | rfl | (exfalso; omega)

theorem lead_row_2p {lead : Nat} (h1 : 0xD0 ≤ lead) (h2 : lead ≤ 0xFA) :
    lead_row lead = some (0x40, 0xD0, 2) := by
  unfold lead_row
  split_ifs <;> first | rfl | (exfalso; omega)

theorem lead_row_3p {lead : Nat} (h1 : 0xFB ≤ lead) (h2 : lead ≤ 0xFD) :
    lead_row lead = some (0x2911, 0xFB, 3) := by
  unfold lead_row
  split_ifs <;> first | rfl | (exfalso; omega)

theorem lead_row_4p {lead : Nat} (h1 : lead = 0xFE) :
    lead_row lead = some (0x2DD0C, 0xFE, 4) := by
  unfold lead_row
  split_ifs <;> first | rfl | (exfalso; omega)

/-! ## Closed forms for `encode_delta`, one per row -/

theorem encode_delta_4n {delta : Int} (h1 : -0x10FF9F ≤ delta) (h2 : delta ≤ -0x2DD0D) :
    encode_delta delta = some
      [((0x22 : Int) + (delta + 0x2DD0C) / 243 / 243 / 243).toNat,
       trail_to_byte (((delta + 0x2DD0C) / 243 / 243 % 243).toNat),
       trail_to_byte (((delta + 0x2DD0C) / 243 % 243).toNat),
       trail_to_byte (((delta + 0x2DD0C) % 243).toNat)] := by
  unfold encode_delta
  rw [encode_row_4n h1 h2]
  norm_num [trailLoop_three]

theorem encode_delta_3n {delta : Int} (h1 : -0x2DD0C ≤ delta) (h2 : delta ≤ -0x2912) :
    encode_delta delta = some
      [((0x25 : Int) + (delta + 0x2911) / 243 / 243).toNat,
       trail_to_byte (((delta + 0x2911) / 243 % 243).toNat),
       trail_to_byte (((delta + 0x2911) % 243).toNat)] := by
  unfold encode_delta
  rw [encode_row_3n h1 h2]
  norm_num [trailLoop_two]

theorem encode_delta_2n {delta : Int} (h1 : -0x2911 ≤ delta) (h2 : delta ≤ -0x41) :
    encode_delta delta = some
      [((0x50 : Int) + (delta + 0x40) / 243).toNat,
       trail_to_byte (((delta + 0x40) % 243).toNat)] := by
  unfold encode_delta
  rw [encode_row_2n h1 h2]
  norm_num [trailLoop_one]

theorem encode_delta_1 {delta : Int} (h1 : -0x40 ≤ delta) (h2 : delta ≤ 0x3F) :
    encode_delta delta = some [((0x90 : Int) + delta).toNat] := by
  unfold encode_delta
  rw [encode_row_1 h1 h2]
  norm_num [trailLoop_zero]

theorem encode_delta_2p {delta : Int} (h1 : 0x40 ≤ delta) (h2 : delta ≤ 0x2910) :
    encode_delta delta = some
      [((0xD0 : Int) + (delta - 0x40) / 243).toNat,
       trail_to_byte (((delta - 0x40) % 243).toNat)] := by
  unfold encode_delta
  rw [encode_row_2p h1 h2]
  norm_num [trailLoop_one]

theorem encode_delta_3p {delta : Int} (h1 : 0x2911 ≤ delta) (h2 : delta ≤ 0x2DD0B) :
    encode_delta delta = some
      [((0xFB : Int) + (delta - 0x2911) / 243 / 243).toNat,
       trail_to_byte (((delta - 0x2911) / 243 % 243).toNat),
       trail_to_byte (((delta - 0x2911) % 243).toNat)] := by
  unfold encode_delta
  rw [encode_row_3p h1 h2]
  norm_num [trailLoop_two]

theorem encode_delta_4p {delta : Int} (h1 : 0x2DD0C ≤ delta) (h2 : delta ≤ 0x10FFBF) :
    encode_delta delta = some
      [((0xFE : Int) + (delta - 0x2DD0C) / 243 / 243 / 243).toNat,
       trail_to_byte (((delta - 0x2DD0C) / 243 / 243 % 243).toNat),
       trail_to_byte (((delta - 0x2DD0C) / 243 % 243).toNat),
       trail_to_byte (((delta - 0x2DD0C) % 243).toNat)] := by
  unfold encode_delta
  rw [encode_row_4p h1 h2]
  norm_num [trailLoop_three]

/-! ## Order machinery on byte lists -/

theorem strongLt_head {b1 b2 : Nat} {r1 r2 : List Nat} (h : b1 < b2) :
    StrongLt (b1 :: r1) (b2 :: r2) :=
  ⟨[], b1, b2, r1, r2, h, rfl, rfl⟩

theorem strongLt_cons {l1 l2 : List Nat} (a : Nat) (h : StrongLt l1 l2) :
    StrongLt (a :: l1) (a :: l2) := by
  obtain ⟨p, b1, b2, r1, r2, hb, e1, e2⟩ := h
  exact ⟨a :: p, b1, b2, r1, r2, hb, by simp [e1], by simp [e2]⟩

theorem strongLt_append_left {l1 l2 : List Nat} (c : List Nat) (h : StrongLt l1 l2) :
    StrongLt (c ++ l1) (c ++ l2) := by
  induction c with
  | nil => simpa using h
  | cons a c ih => exact strongLt_cons a ih

theorem strongLt_append_right {l1 l2 : List Nat} (t1 t2 : List Nat) (h : StrongLt l1 l2) :
    StrongLt (l1 ++ t1) (l2 ++ t2) := by
  obtain ⟨p, b1, b2, r1, r2, hb, e1, e2⟩ := h
  exact ⟨p, b1, b2, r1 ++ t1, r2 ++ t2, hb, by simp [e1], by simp [e2]⟩

theorem strongLt_len2 (base x1 x2 : Int) (h : x1 < x2) (h0 : 0 ≤ base + x1 / 243) :
    StrongLt
      [(base + x1 / 243).toNat, trail_to_byte ((x1 % 243).toNat)]
      [(base + x2 / 243).toNat, trail_to_byte ((x2 % 243).toNat)] := by
  rcases eq_or_lt_of_le (by omega : x1 / 243 ≤ x2 / 243) with hq | hq
  · have e : (base + x1 / 243).toNat = (base + x2 / 243).toNat := by omega
    rw [e]
    exact strongLt_cons _ (strongLt_head (trail_to_byte_mono (by omega)))
  · exact strongLt_head (by omega)

theorem strongLt_len3 (base x1 x2 : Int) (h : x1 < x2)
    (h0 : 0 ≤ base + x1 / 243 / 243) :
    StrongLt
      [(base + x1 / 243 / 243).toNat,
       trail_to_byte ((x1 / 243 % 243).toNat),
       trail_to_byte ((x1 % 243).toNat)]
      [(base + x2 / 243 / 243).toNat,
       trail_to_byte ((x2 / 243 % 243).toNat),
       trail_to_byte ((x2 % 243).toNat)] := by
  rcases eq_or_lt_of_le (by omega : x1 / 243 / 243 ≤ x2 / 243 / 243) with hq | hq
  · have e : (base + x1 / 243 / 243).toNat = (base + x2 / 243 / 243).toNat := by omega
    rw [e]
    apply strongLt_cons
    rcases eq_or_lt_of_le (by omega : x1 / 243 ≤ x2 / 243) with hm | hm
    · have e2 : (x1 / 243 % 243).toNat = (x2 / 243 % 243).toNat := by rw [hm]
      rw [e2]
      exact strongLt_cons _ (strongLt_head (trail_to_byte_mono (by omega)))
    · exact strongLt_head (trail_to_byte_mono (by omega))
  · exact strongLt_head (by omega)

theorem strongLt_len4 (base x1 x2 : Int) (h : x1 < x2)
    (h0 : 0 ≤ base + x1 / 243 / 243 / 243) :
    StrongLt
      [(base + x1 / 243 / 243 / 243).toNat,
       trail_to_byte ((x1 / 243 / 243 % 243).toNat),
       trail_to_byte ((x1 / 243 % 243).toNat),
       trail_to_byte ((x1 % 243).toNat)]
      [(base + x2 / 243 / 243 / 243).toNat,
       trail_to_byte ((x2 / 243 / 243 % 243).toNat),
       trail_to_byte ((x2 / 243 % 243).toNat),
       trail_to_byte ((x2 % 243).toNat)] := by
  rcases eq_or_lt_of_le (by omega : x1 / 243 / 243 / 243 ≤ x2 / 243 / 243 / 243) with hq | hq
  · have e : (base + x1 / 243 / 243 / 243).toNat = (base + x2 / 243 / 243 / 243).toNat := by
      omega
    rw [e]
    apply strongLt_cons
    rcases eq_or_lt_of_le (by omega : x1 / 243 / 243 ≤ x2 / 243 / 243) with hm | hm
    · have e2 : (x1 / 243 / 243 % 243).toNat = (x2 / 243 / 243 % 243).toNat := by rw [hm]
      rw [e2]
      apply strongLt_cons
      rcases eq_or_lt_of_le (by omega : x1 / 243 ≤ x2 / 243) with hn | hn
      · have e3 : (x1 / 243 % 243).toNat = (x2 / 243 % 243).toNat := by rw [hn]
        rw [e3]
        exact strongLt_cons _ (strongLt_head (trail_to_byte_mono (by omega)))
      · exact strongLt_head (trail_to_byte_mono (by omega))
    · exact strongLt_head (trail_to_byte_mono (by omega))
  · exact strongLt_head (by omega)

set_option maxHeartbeats 3200000 in
/-- Order preservation of the variable-length code: a smaller delta encodes
to a chunk that is smaller at the first differing byte. -/
theorem encode_delta_mono {d1 d2 : Int}
    (hlo : -0x10FF9F ≤ d1) (hhi : d2 ≤ 0x10FFBF) (hlt : d1 < d2) :
    ∃ ch1 ch2, encode_delta d1 = some ch1 ∧ encode_delta d2 = some ch2 ∧
      StrongLt ch1 ch2 := by
  have c1 : d1 ≤ -0x2DD0D ∨ (-0x2DD0C ≤ d1 ∧ d1 ≤ -0x2912) ∨ (-0x2911 ≤ d1 ∧ d1 ≤ -0x41) ∨
      (-0x40 ≤ d1 ∧ d1 ≤ 0x3F) ∨ (0x40 ≤ d1 ∧ d1 ≤ 0x2910) ∨
      (0x2911 ≤ d1 ∧ d1 ≤ 0x2DD0B) ∨ 0x2DD0C ≤ d1 := by omega
  have c2 : d2 ≤ -0x2DD0D ∨ (-0x2DD0C ≤ d2 ∧ d2 ≤ -0x2912) ∨ (-0x2911 ≤ d2 ∧ d2 ≤ -0x41) ∨
      (-0x40 ≤ d2 ∧ d2 ≤ 0x3F) ∨ (0x40 ≤ d2 ∧ d2 ≤ 0x2910) ∨
      (0x2911 ≤ d2 ∧ d2 ≤ 0x2DD0B) ∨ 0x2DD0C ≤ d2 := by omega
  rcases c1 with g1 | g1 | g1 | g1 | g1 | g1 | g1 <;>
    rcases c2 with g2 | g2 | g2 | g2 | g2 | g2 | g2 <;>
    (first
      | rw [@encode_delta_4n d1 (by omega) (by omega)]
      | rw [@encode_delta_3n d1 (by omega) (by omega)]
      | rw [@encode_delta_2n d1 (by omega) (by omega)]
      | rw [@encode_delta_1 d1 (by omega) (by omega)]
      | rw [@encode_delta_2p d1 (by omega) (by omega)]
      | rw [@encode_delta_3p d1 (by omega) (by omega)]
      | rw [@encode_delta_4p d1 (by omega) (by omega)]) <;>
    (first
      | rw [@encode_delta_4n d2 (by omega) (by omega)]
      | rw [@encode_delta_3n d2 (by omega) (by omega)]
      | rw [@encode_delta_2n d2 (by omega) (by omega)]
      | rw [@encode_delta_1 d2 (by omega) (by omega)]
      | rw [@encode_delta_2p d2 (by omega) (by omega)]
      | rw [@encode_delta_3p d2 (by omega) (by omega)]
      | rw [@encode_delta_4p d2 (by omega) (by omega)]) <;>
    refine ⟨_, _, rfl, rfl, ?_⟩ <;>
    (first
      | exact strongLt_len4 _ _ _ (by omega) (by omega)
      | exact strongLt_len3 _ _ _ (by omega) (by omega)
      | exact strongLt_len2 _ _ _ (by omega) (by omega)
      | exact strongLt_head (by omega))

/-! ## Decoding a well-formed chunk recovers the delta -/

theorem decode_delta_one (x offset : Int) (baseN b : Nat)
    (hb : (b : Int) = (baseN : Int) + x)
    (hrow : lead_row b = some (offset, baseN, 1)) (rest : List Nat) :
    decode_delta b rest = some (.ok (x + offset, rest)) := by
  unfold decode_delta
  rw [hrow]
  dsimp only
  rw [if_neg (by omega)]
  simp only [Nat.sub_self, List.take_zero, trailDigits, List.drop_zero]
  have e : (b : Int) - (baseN : Int) = x := by omega
  rw [e]

theorem decode_delta_two (x offset : Int) (baseN b m : Nat) (hm : m < 243)
    (hmx : (m : Int) = x % 243)
    (hb : (b : Int) = (baseN : Int) + x / 243)
    (hrow : lead_row b = some (offset, baseN, 2)) (rest : List Nat) :
    decode_delta b (trail_to_byte m :: rest) = some (.ok (x + offset, rest)) := by
  unfold decode_delta
  rw [hrow]
  dsimp only
  rw [if_neg (by simp; omega)]
  simp only [show (2 : Nat) - 1 = 1 from rfl, List.take_succ_cons, List.take_zero,
    List.drop_succ_cons, List.drop_zero]
  simp only [trailDigits, byte_to_trail_trail_to_byte hm, nTrailValues_eq]
  have e : ((b : Int) - (baseN : Int)) * 243 + (m : Int) + offset = x + offset := by omega
  rw [e]

theorem decode_delta_three (x offset : Int) (baseN b m1 m2 : Nat)
    (hm1 : m1 < 243) (hm2 : m2 < 243)
    (hmx1 : (m1 : Int) = x / 243 % 243) (hmx2 : (m2 : Int) = x % 243)
    (hb : (b : Int) = (baseN : Int) + x / 243 / 243)
    (hrow : lead_row b = some (offset, baseN, 3)) (rest : List Nat) :
    decode_delta b (trail_to_byte m1 :: trail_to_byte m2 :: rest) =
      some (.ok (x + offset, rest)) := by
  unfold decode_delta
  rw [hrow]
  dsimp only
  rw [if_neg (by simp; omega)]
  simp only [show (3 : Nat) - 1 = 2 from rfl, List.take_succ_cons, List.take_zero,
    List.drop_succ_cons, List.drop_zero]
  simp only [trailDigits, byte_to_trail_trail_to_byte hm1, byte_to_trail_trail_to_byte hm2,
    nTrailValues_eq]
  have e : (((b : Int) - (baseN : Int)) * 243 + (m1 : Int)) * 243 + (m2 : Int) + offset =
      x + offset := by omega
  rw [e]

theorem decode_delta_four (x offset : Int) (baseN b m1 m2 m3 : Nat)
    (hm1 : m1 < 243) (hm2 : m2 < 243) (hm3 : m3 < 243)
    (hmx1 : (m1 : Int) = x / 243 / 243 % 243) (hmx2 : (m2 : Int) = x / 243 % 243)
    (hmx3 : (m3 : Int) = x % 243)
    (hb : (b : Int) = (baseN : Int) + x / 243 / 243 / 243)
    (hrow : lead_row b = some (offset, baseN, 4)) (rest : List Nat) :
    decode_delta b (trail_to_byte m1 :: trail_to_byte m2 :: trail_to_byte m3 :: rest) =
      some (.ok (x + offset, rest)) := by
  unfold decode_delta
  rw [hrow]
  dsimp only
  rw [if_neg (by simp; omega)]
  simp only [show (4 : Nat) - 1 = 3 from rfl, List.take_succ_cons, List.take_zero,
    List.drop_succ_cons, List.drop_zero]
  simp only [trailDigits, byte_to_trail_trail_to_byte hm1, byte_to_trail_trail_to_byte hm2,
    byte_to_trail_trail_to_byte hm3, nTrailValues_eq]
  have e : ((((b : Int) - (baseN : Int)) * 243 + (m1 : Int)) * 243 + (m2 : Int)) * 243 +
      (m3 : Int) + offset = x + offset := by omega
  rw [e]

/-- A delta in the coding range encodes to a chunk whose lead byte lies in
`[0x21, 0xFE]`, whose trail bytes come from `trail_to_byte`, and which decodes
back to the same delta in front of any continuation. -/
theorem encode_delta_spec {delta : Int} (h1 : -0x10FF9F ≤ delta) (h2 : delta ≤ 0x10FFBF) :
    ∃ b ts, encode_delta delta = some (b :: ts) ∧
      0x21 ≤ b ∧ b ≤ 0xFE ∧ ts.length ≤ 3 ∧
      (∀ t ∈ ts, ∃ m, m < 243 ∧ t = trail_to_byte m) ∧
      (∀ rest, decode_delta b (ts ++ rest) = some (.ok (delta, rest))) := by
  have c : delta ≤ -0x2DD0D ∨ (-0x2DD0C ≤ delta ∧ delta ≤ -0x2912) ∨
      (-0x2911 ≤ delta ∧ delta ≤ -0x41) ∨ (-0x40 ≤ delta ∧ delta ≤ 0x3F) ∨
      (0x40 ≤ delta ∧ delta ≤ 0x2910) ∨ (0x2911 ≤ delta ∧ delta ≤ 0x2DD0B) ∨
      0x2DD0C ≤ delta := by omega
  rcases c with g | g | g | g | g | g | g
  · rw [@encode_delta_4n delta (by omega) (by omega)]
    refine ⟨_, _, rfl, by omega, by omega, by simp, ?_, ?_⟩
    · intro t ht
      simp only [List.mem_cons, List.not_mem_nil, or_false] at ht
      rcases ht with h | h | h <;> exact ⟨_, by omega, h⟩
    · intro rest
      have e : delta = (delta + 0x2DD0C) + -0x2DD0C := by omega
      rw [show (some (Except.ok (delta, rest)) :
            Option (Except DecodeError (Int × List Nat))) =
          some (.ok ((delta + 0x2DD0C) + -0x2DD0C, rest)) by rw [← e]]
      exact decode_delta_four (delta + 0x2DD0C) (-0x2DD0C) 0x22 _ _ _ _
        (by omega) (by omega) (by omega) (by omega) (by omega) (by omega) (by omega)
        (lead_row_4n (by omega)) rest
  · rw [@encode_delta_3n delta (by omega) (by omega)]
    refine ⟨_, _, rfl, by omega, by omega, by simp, ?_, ?_⟩
    · intro t ht
      simp only [List.mem_cons, List.not_mem_nil, or_false] at ht
      rcases ht with h | h <;> exact ⟨_, by omega, h⟩
    · intro rest
      rw [show (some (Except.ok (delta, rest)) :
            Option (Except DecodeError (Int × List Nat))) =
          some (.ok ((delta + 0x2911) + -0x2911, rest)) by norm_num]
      exact decode_delta_three (delta + 0x2911) (-0x2911) 0x25 _ _ _
        (by omega) (by omega) (by omega) (by omega) (by omega)
        (lead_row_3n (by omega) (by omega)) rest
  · rw [@encode_delta_2n delta (by omega) (by omega)]
    refine ⟨_, _, rfl, by omega, by omega, by simp, ?_, ?_⟩
    · intro t ht
      simp only [List.mem_cons, List.not_mem_nil, or_false] at ht
      exact ⟨_, by omega, ht⟩
    · intro rest
      rw [show (some (Except.ok (delta, rest)) :
            Option (Except DecodeError (Int × List Nat))) =
          some (.ok ((delta + 0x40) + -0x40, rest)) by norm_num]
      exact decode_delta_two (delta + 0x40) (-0x40) 0x50 _ _
        (by omega) (by omega) (by omega)
        (lead_row_2n (by omega) (by omega)) rest
  · rw [@encode_delta_1 delta (by omega) (by omega)]
    refine ⟨_, _, rfl, by omega, by omega, by simp, ?_, ?_⟩
    · intro t ht
      simp at ht
    · intro rest
      rw [show (some (Except.ok (delta, rest)) :
            Option (Except DecodeError (Int × List Nat))) =
          some (.ok (delta + 0, rest)) by norm_num]
      exact decode_delta_one delta 0 0x90 _
        (by omega) (lead_row_1 (by omega) (by omega)) rest
  · rw [@encode_delta_2p delta (by omega) (by omega)]
    refine ⟨_, _, rfl, by omega, by omega, by simp, ?_, ?_⟩
    · intro t ht
      simp only [List.mem_cons, List.not_mem_nil, or_false] at ht
      exact ⟨_, by omega, ht⟩
    · intro rest
      rw [show (some (Except.ok (delta, rest)) :
            Option (Except DecodeError (Int × List Nat))) =
          some (.ok ((delta - 0x40) + 0x40, rest)) by norm_num]
      exact decode_delta_two (delta - 0x40) 0x40 0xD0 _ _
        (by omega) (by omega) (by omega)
        (lead_row_2p (by omega) (by omega)) rest
  · rw [@encode_delta_3p delta (by omega) (by omega)]
    refine ⟨_, _, rfl, by omega, by omega, by simp, ?_, ?_⟩
    · intro t ht
      simp only [List.mem_cons, List.not_mem_nil, or_false] at ht
      rcases ht with h | h <;> exact ⟨_, by omega, h⟩
    · intro rest
      rw [show (some (Except.ok (delta, rest)) :
            Option (Except DecodeError (Int × List Nat))) =
          some (.ok ((delta - 0x2911) + 0x2911, rest)) by norm_num]
      exact decode_delta_three (delta - 0x2911) 0x2911 0xFB _ _ _
        (by omega) (by omega) (by omega) (by omega) (by omega)
        (lead_row_3p (by omega) (by omega)) rest
  · rw [@encode_delta_4p delta (by omega) (by omega)]
    refine ⟨_, _, rfl, by omega, by omega, by simp, ?_, ?_⟩
    · intro t ht
      simp only [List.mem_cons, List.not_mem_nil, or_false] at ht
      rcases ht with h | h | h <;> exact ⟨_, by omega, h⟩
    · intro rest
      rw [show (some (Except.ok (delta, rest)) :
            Option (Except DecodeError (Int × List Nat))) =
          some (.ok ((delta - 0x2DD0C) + 0x2DD0C, rest)) by norm_num]
      exact decode_delta_four (delta - 0x2DD0C) 0x2DD0C 0xFE _ _ _ _
        (by omega) (by omega) (by omega) (by omega) (by omega) (by omega) (by omega)
        (lead_row_4p (by omega)) rest

/-! ## Character-level facts for the delta coder -/

theorem prevInv_initial : prevInv initialPreviousState := by
  unfold prevInv initialPreviousState
  omega

theorem normalized_prev_inv {c : Nat} (hc : ScalarValue c) :
    prevInv (normalized_prev c) := by
  unfold ScalarValue at hc
  unfold normalized_prev prevInv
  split_ifs <;> omega

theorem delta_in_range {prev c : Nat} (hp : prevInv prev) (hc : ScalarValue c)
    (h20 : 0x20 < c) :
    -0x10FF9F ≤ (c : Int) - (prev : Int) ∧ (c : Int) - (prev : Int) ≤ 0x10FFBF := by
  unfold prevInv at hp
  unfold ScalarValue at hc
  omega

theorem char_from_u32_eq {c : Nat} (hc : ScalarValue c) :
    char_from_u32 (c : Int) = some c := by
  have hlt : c < 0x110000 := by unfold ScalarValue at hc; omega
  dsimp only [char_from_u32]
  have h1 : ((c : Int) % 2 ^ 32) = (c : Int) := by
    refine Int.emod_eq_of_lt (by positivity) ?_
    calc (c : Int) < 0x110000 := by exact_mod_cast hlt
      _ ≤ 2 ^ 32 := by norm_num
  rw [h1, Int.toNat_natCast, if_pos hc]

/-- One encode step followed by one decode step is the identity and both
sides move `prev` to the same place. -/
theorem decode_encode_char {prev c : Nat} (hp : prevInv prev) (hc : ScalarValue c) :
    ∃ b ts p2, encode_char prev c = some (b :: ts, p2) ∧ prevInv p2 ∧ ts.length ≤ 3 ∧
      ((c ≤ 0x20 ∧ b = c ∧ ts = []) ∨
        (0x20 < c ∧ 0x21 ≤ b ∧ b ≤ 0xFE ∧
          ∀ t ∈ ts, ∃ m, m < 243 ∧ t = trail_to_byte m)) ∧
      (∀ rest, decode_char prev b (ts ++ rest) = some (p2, .ok (some c, rest))) := by
  by_cases h20 : c ≤ 0x20
  · refine ⟨c, [], if c ≠ asciiSp then initialPreviousState else prev, ?_, ?_, by simp,
      Or.inl ⟨h20, rfl, rfl⟩, ?_⟩
    · unfold encode_char asciiSp
      rw [if_pos (by omega)]
    · split_ifs
      · exact prevInv_initial
      · exact hp
    · intro rest
      unfold decode_char leadByteReset leadByteAsciiSp asciiSp initialPreviousState
      rw [if_neg (by omega), if_pos (by omega)]
      split_ifs with g
      · simp
      · simp
  · have hd := delta_in_range hp hc (by omega)
    obtain ⟨b, ts, henc, hb1, hb2, hlen, htr, hdec⟩ := encode_delta_spec hd.1 hd.2
    refine ⟨b, ts, normalized_prev c, ?_, normalized_prev_inv hc, hlen,
      Or.inr ⟨by omega, hb1, hb2, htr⟩, ?_⟩
    · unfold encode_char asciiSp
      rw [if_neg (by omega), henc]
    · intro rest
      unfold decode_char leadByteReset leadByteAsciiSp
      rw [if_neg (by omega), if_neg (by omega), hdec rest]
      dsimp only
      have e : (prev : Int) + ((c : Int) - (prev : Int)) = (c : Int) := by ring
      rw [e, char_from_u32_eq hc]

/-- Unfolding one `decodeList` step across a well-formed chunk. -/
theorem decodeList_chunk {prev c b p2 : Nat} {ts : List Nat}
    (hdec : ∀ rest, decode_char prev b (ts ++ rest) = some (p2, .ok (some c, rest))) :
    ∀ f rest, decodeList (f + 1) prev ((b :: ts) ++ rest) =
      consChar c (decodeList f p2 rest) := by
  intro f rest
  rw [List.cons_append]
  simp only [decodeList, hdec rest]

/-- Order preservation of one encode step: on equal states, a smaller code
point encodes to a chunk smaller at the first differing byte. -/
theorem encode_char_mono {prev c1 c2 : Nat} (hp : prevInv prev) (h1 : ScalarValue c1)
    (h2 : ScalarValue c2) (hlt : c1 < c2) :
    ∃ ch1 p1 ch2 p2, encode_char prev c1 = some (ch1, p1) ∧
      encode_char prev c2 = some (ch2, p2) ∧ prevInv p1 ∧ prevInv p2 ∧
      StrongLt ch1 ch2 := by
  have hps : prevInv (if c1 ≠ asciiSp then initialPreviousState else prev) := by
    split_ifs
    · exact prevInv_initial
    · exact hp
  have hps2 : prevInv (if c2 ≠ asciiSp then initialPreviousState else prev) := by
    split_ifs
    · exact prevInv_initial
    · exact hp
  by_cases g1 : c1 ≤ 0x20
  · by_cases g2 : c2 ≤ 0x20
    · refine ⟨[c1], if c1 ≠ asciiSp then initialPreviousState else prev,
        [c2], if c2 ≠ asciiSp then initialPreviousState else prev,
        ?_, ?_, hps, hps2, strongLt_head hlt⟩ <;>
        (unfold encode_char asciiSp
         rw [if_pos (by omega)])
    · have hd := delta_in_range hp h2 (by omega)
      obtain ⟨b, ts, henc, hb1, _, _, _, _⟩ := encode_delta_spec hd.1 hd.2
      refine ⟨[c1], if c1 ≠ asciiSp then initialPreviousState else prev,
        b :: ts, normalized_prev c2, ?_, ?_, hps, normalized_prev_inv h2,
        strongLt_head (by omega)⟩
      · unfold encode_char asciiSp
        rw [if_pos (by omega)]
      · unfold encode_char asciiSp
        rw [if_neg (by omega), henc]
  · have g2 : ¬ c2 ≤ 0x20 := by omega
    have hd1 := delta_in_range hp h1 (by omega)
    have hd2 := delta_in_range hp h2 (by omega)
    obtain ⟨ch1, ch2, he1, he2, hs⟩ :=
      encode_delta_mono hd1.1 hd2.2
        (by omega : (c1 : Int) - (prev : Int) < (c2 : Int) - (prev : Int))
    refine ⟨ch1, normalized_prev c1, ch2, normalized_prev c2, ?_, ?_,
      normalized_prev_inv h1, normalized_prev_inv h2, hs⟩
    · unfold encode_char asciiSp
      rw [if_neg (by omega), he1]
    · unfold encode_char asciiSp
      rw [if_neg (by omega), he2]

/-! ## Sequence-level lemmas -/

theorem consAll_cons (c : Nat) (cs : List Nat) (r : Option (Except DecodeError (List Nat))) :
    consAll (c :: cs) r = consChar c (consAll cs r) := rfl

theorem consAll_ok (cs l : List Nat) :
    consAll cs (some (.ok l)) = some (.ok (cs ++ l)) := by
  induction cs with
  | nil => rfl
  | cons c cs ih => rw [consAll_cons, ih]; rfl

/-- `decode_char` on the reset byte: the slice advances past the `0xFF`, no
character is produced, and `prev` is left untouched. -/
theorem decode_char_reset (prev : Nat) (rest : List Nat) :
    decode_char prev 0xFF rest = some (prev, .ok (none, rest)) := rfl

theorem decodeList_ffs (k : Nat) :
    ∀ f prev bs, decodeList (k + f) prev (ffs k ++ bs) = decodeList f prev bs := by
  induction k with
  | zero => intro f prev bs; simp [ffs]
  | succ k ih =>
    intro f prev bs
    rw [show k + 1 + f = (k + f) + 1 by omega,
        show ffs (k + 1) = 0xFF :: ffs k from rfl, List.cons_append]
    simp only [decodeList, decode_char_reset]
    exact ih f prev bs

theorem insertFFs_nil_right : ∀ ns : List Nat, insertFFs ns [] = ffs ns.sum := by
  intro ns
  induction ns with
  | nil => simp [insertFFs, ffs]
  | cons n ns ih =>
    simp only [insertFFs, ih, List.sum_cons]
    unfold ffs
    rw [List.replicate_add]

theorem insertFFs_nil_left : ∀ chs : List (List Nat), insertFFs [] chs = chs.flatten := by
  intro chs
  induction chs with
  | nil => simp [insertFFs]
  | cons ch chs ih =>
    simp only [insertFFs, ih, List.flatten_cons]

theorem length_le_flatten {chs : List (List Nat)} (h : ∀ ch ∈ chs, ch ≠ []) :
    chs.length ≤ chs.flatten.length := by
  induction chs with
  | nil => simp
  | cons ch chs ih =>
    have h1 : ch ≠ [] := h ch (by simp)
    have h2 : 1 ≤ ch.length := by
      cases ch with
      | nil => exact absurd rfl h1
      | cons a t => simp
    have h3 := ih (fun c hc => h c (by simp [hc]))
    simp only [List.flatten_cons, List.length_cons, List.length_append]
    omega

/-- The master induction: encoding a valid sequence succeeds, the byte stream
is the concatenation of the chunks, every chunk is well formed, and decoding
the chunk stream with any number of `0xFF` reset bytes inserted at chunk
boundaries replays the sequence. -/
theorem chunkSeq_spec (s : List Nat) : ∀ prev, prevInv prev → (∀ c ∈ s, ScalarValue c) →
    ∃ chs pf, chunkSeq prev s = some (chs, pf) ∧ prevInv pf ∧
      encodeSeq prev s = some (chs.flatten, pf) ∧
      chs.length = s.length ∧
      (∀ ch ∈ chs, (∃ c, c ∈ s ∧ c ≤ 0x20 ∧ ch = [c]) ∨
        (∃ b ts, ch = b :: ts ∧ 0x21 ≤ b ∧ b ≤ 0xFE ∧
          ∀ t ∈ ts, ∃ m, m < 243 ∧ t = trail_to_byte m)) ∧
      (∀ x ∈ s, x ≤ 0x20 → [x] ∈ chs) ∧
      (∀ ns f tail, decodeList (s.length + ns.sum + f) prev (insertFFs ns chs ++ tail) =
        consAll s (decodeList f pf tail)) := by
  induction s with
  | nil =>
    intro prev hp _
    refine ⟨[], prev, rfl, hp, rfl, rfl, by simp, by simp, ?_⟩
    intro ns f tail
    rw [insertFFs_nil_right,
      show List.length ([] : List Nat) + ns.sum + f = ns.sum + f from by simp,
      decodeList_ffs]
    rfl
  | cons c cs ih =>
    intro prev hp hv
    have hc : ScalarValue c := hv c (by simp)
    obtain ⟨b, ts, p2, henc, hp2, hlen, hshp, hdec⟩ := decode_encode_char hp hc
    obtain ⟨chs, pf, hchs, hpf, hbytes, hcount, hshape, hself, hdecode⟩ :=
      ih p2 hp2 (fun x hx => hv x (by simp [hx]))
    refine ⟨(b :: ts) :: chs, pf, ?_, hpf, ?_, by simpa using hcount, ?_, ?_, ?_⟩
    · unfold chunkSeq
      rw [henc]
      dsimp only
      rw [hchs]
    · unfold encodeSeq
      rw [henc]
      dsimp only
      rw [hbytes]
      simp [List.flatten_cons]
    · intro ch hch
      rcases List.mem_cons.mp hch with h | h
      · rcases hshp with ⟨h20, e1, e2⟩ | ⟨h20, hb1, hb2, htr⟩
        · exact Or.inl ⟨c, by simp, h20, by rw [h, e1, e2]⟩
        · exact Or.inr ⟨b, ts, h, hb1, hb2, htr⟩
      · rcases hshape ch h with ⟨x, hx, h20, he⟩ | hdelta
        · exact Or.inl ⟨x, by simp [hx], h20, he⟩
        · exact Or.inr hdelta
    · intro x hx h20
      rcases List.mem_cons.mp hx with h | h
      · rcases hshp with ⟨g20, e1, e2⟩ | ⟨g20, _, _, _⟩
        · subst h
          rw [e2, e1]
          simp
        · exact absurd h20 (by omega)
      · exact List.mem_cons.mpr (Or.inr (hself x h h20))
    · intro ns f tail
      cases ns with
      | nil =>
        rw [show insertFFs [] ((b :: ts) :: chs) = (b :: ts) ++ insertFFs [] chs from by
              simp only [insertFFs],
          List.append_assoc,
          show (c :: cs).length + List.sum ([] : List Nat) + f =
            (cs.length + List.sum ([] : List Nat) + f) + 1 from by
              simp only [List.length_cons, List.sum_nil]
              omega,
          decodeList_chunk hdec, hdecode [] f tail]
        rfl
      | cons n ns =>
        rw [show insertFFs (n :: ns) ((b :: ts) :: chs) =
            (ffs n ++ (b :: ts)) ++ insertFFs ns chs from by
              simp only [insertFFs],
          List.append_assoc, List.append_assoc,
          show (c :: cs).length + List.sum (n :: ns) + f =
            n + ((cs.length + ns.sum + f) + 1) from by
              simp only [List.length_cons, List.sum_cons]
              omega,
          decodeList_ffs,
          decodeList_chunk hdec, hdecode ns f tail]
        rfl

/-- Derived form of the master induction for plain byte-stream encoding. -/
theorem encodeSeq_spec (s : List Nat) (prev : Nat) (hp : prevInv prev)
    (hv : ∀ c ∈ s, ScalarValue c) :
    ∃ bs pf, encodeSeq prev s = some (bs, pf) ∧ prevInv pf ∧ s.length ≤ bs.length ∧
      ∀ f tail, decodeList (s.length + f) prev (bs ++ tail) =
        consAll s (decodeList f pf tail) := by
  obtain ⟨chs, pf, _, hpf, hbytes, hcount, hshape, _, hdecode⟩ := chunkSeq_spec s prev hp hv
  refine ⟨chs.flatten, pf, hbytes, hpf, ?_, ?_⟩
  · have hne : ∀ ch ∈ chs, ch ≠ [] := by
      intro ch hch
      rcases hshape ch hch with ⟨c, _, _, he⟩ | ⟨b, ts, he, _⟩ <;> simp [he]
    have := length_le_flatten hne
    omega
  · intro f tail
    have h := hdecode [] f tail
    rw [insertFFs_nil_left] at h
    simpa using h

/-! ## Lexicographic order on lists -/

theorem lex_append {l r : List Nat} (hr : r ≠ []) : List.Lex (· < ·) l (l ++ r) := by
  induction l with
  | nil =>
    cases r with
    | nil => exact absurd rfl hr
    | cons x t => exact List.Lex.nil
  | cons a t ih => exact List.Lex.cons ih

theorem lex_irrefl (l : List Nat) : ¬ List.Lex (· < ·) l l := by
  induction l with
  | nil => intro h; cases h
  | cons a t ih =>
    intro h
    cases h with
    | rel h1 => exact absurd h1 (lt_irrefl a)
    | cons h1 => exact ih h1

theorem lex_asymm : ∀ l1 l2 : List Nat,
    List.Lex (· < ·) l1 l2 → List.Lex (· < ·) l2 l1 → False := by
  intro l1 l2 h
  induction h with
  | nil => intro h2; cases h2
  | rel h1 =>
    intro h2
    cases h2 with
    | rel h3 => omega
    | cons h3 => omega
  | cons h1 ih =>
    intro h2
    cases h2 with
    | rel h3 => omega
    | cons h3 => exact ih h3

theorem lex_trichotomy : ∀ l1 l2 : List Nat,
    List.Lex (· < ·) l1 l2 ∨ l1 = l2 ∨ List.Lex (· < ·) l2 l1 := by
  intro l1
  induction l1 with
  | nil =>
    intro l2
    cases l2 with
    | nil => exact Or.inr (Or.inl rfl)
    | cons b t => exact Or.inl List.Lex.nil
  | cons a t ih =>
    intro l2
    cases l2 with
    | nil => exact Or.inr (Or.inr List.Lex.nil)
    | cons b u =>
      rcases Nat.lt_trichotomy a b with h | h | h
      · exact Or.inl (List.Lex.rel h)
      · subst h
        rcases ih u with h2 | h2 | h2
        · exact Or.inl (List.Lex.cons h2)
        · exact Or.inr (Or.inl (by rw [h2]))
        · exact Or.inr (Or.inr (List.Lex.cons h2))
      · exact Or.inr (Or.inr (List.Lex.rel h))

theorem bytesLt_lex {l1 l2 : List Nat} (h : BytesLt l1 l2) : List.Lex (· < ·) l1 l2 := by
  rcases h with ⟨r, hr, he⟩ | ⟨p, b1, b2, r1, r2, hb, e1, e2⟩
  · subst he
    exact lex_append hr
  · subst e1
    subst e2
    induction p with
    | nil => exact List.Lex.rel hb
    | cons a p ih => exact List.Lex.cons ih

theorem bytesLt_ne {l1 l2 : List Nat} (h : BytesLt l1 l2) : l1 ≠ l2 := by
  rcases h with ⟨r, hr, he⟩ | ⟨p, b1, b2, r1, r2, hb, e1, e2⟩
  · subst he
    intro h2
    have hlen := congrArg List.length h2
    rw [List.length_append] at hlen
    have hz : r.length = 0 := by omega
    exact hr (List.length_eq_zero.mp hz)
  · subst e1
    subst e2
    intro h2
    have h3 := List.append_cancel_left h2
    simp only [List.cons.injEq] at h3
    omega

/-- Order preservation at the sequence level: if `s1` precedes `s2` in code
point order, the encoded streams compare the same way (from any common
state). -/
theorem encodeSeq_lex {s1 s2 : List Nat} (h : List.Lex (· < ·) s1 s2) :
    ∀ prev, prevInv prev → (∀ c ∈ s1, ScalarValue c) → (∀ c ∈ s2, ScalarValue c) →
    ∃ bs1 p1 bs2 p2, encodeSeq prev s1 = some (bs1, p1) ∧
      encodeSeq prev s2 = some (bs2, p2) ∧ BytesLt bs1 bs2 := by
  induction h with
  | nil =>
    intro prev hp _ hv2
    obtain ⟨bs2, pf2, he2, _, hlen2, _⟩ := encodeSeq_spec _ prev hp hv2
    refine ⟨[], prev, bs2, pf2, rfl, he2, Or.inl ⟨bs2, ?_, by simp⟩⟩
    intro hnil
    rw [hnil] at hlen2
    simp at hlen2
  | @rel a l1 b l2 hab =>
    intro prev hp hv1 hv2
    obtain ⟨ch1, p1, ch2, p2, he1, he2, hip1, hip2, hs⟩ :=
      encode_char_mono hp (hv1 _ (by simp)) (hv2 _ (by simp)) hab
    obtain ⟨bs1, pf1, hE1, _, _, _⟩ :=
      encodeSeq_spec l1 p1 hip1 (fun x hx => hv1 x (by simp [hx]))
    obtain ⟨bs2, pf2, hE2, _, _, _⟩ :=
      encodeSeq_spec l2 p2 hip2 (fun x hx => hv2 x (by simp [hx]))
    refine ⟨ch1 ++ bs1, pf1, ch2 ++ bs2, pf2, ?_, ?_,
      Or.inr (strongLt_append_right _ _ hs)⟩
    · unfold encodeSeq
      rw [he1]
      dsimp only
      rw [hE1]
    · unfold encodeSeq
      rw [he2]
      dsimp only
      rw [hE2]
  | @cons a l1 l2 h1 ih =>
    intro prev hp hv1 hv2
    obtain ⟨b, ts, p2, henc, hp2, _, _, _⟩ := decode_encode_char hp (hv1 a (by simp))
    obtain ⟨bs1, pf1, bs2, pf2, hE1, hE2, hlt⟩ :=
      ih p2 hp2 (fun x hx => hv1 x (by simp [hx])) (fun x hx => hv2 x (by simp [hx]))
    refine ⟨(b :: ts) ++ bs1, pf1, (b :: ts) ++ bs2, pf2, ?_, ?_, ?_⟩
    · unfold encodeSeq
      rw [henc]
      dsimp only
      rw [hE1]
    · unfold encodeSeq
      rw [henc]
      dsimp only
      rw [hE2]
    · rcases hlt with ⟨r, hr, he⟩ | hstrong
      · exact Or.inl ⟨r, hr, by rw [he, List.append_assoc]⟩
      · exact Or.inr (strongLt_append_left _ hstrong)

/-! ## Byte classification of encoded streams -/

theorem encodeSeq_bytes (s : List Nat) (prev : Nat) (hp : prevInv prev)
    (hv : ∀ c ∈ s, ScalarValue c) :
    ∃ bs pf, encodeSeq prev s = some (bs, pf) ∧
      (∀ b ∈ bs, b < 256) ∧
      (0 ∉ s → ∀ b ∈ bs, b ≠ 0) ∧
      (∀ b ∈ bs, b ∈ excludedCodeBytes → b ∈ s ∧ b ≤ 0x20) ∧
      (∀ c ∈ s, c ≤ 0x20 → c ∈ bs) := by
  obtain ⟨chs, pf, _, hpf, hbytes, hcount, hshape, hself, _⟩ := chunkSeq_spec s prev hp hv
  have hclass : ∀ b ∈ chs.flatten,
      (b ∈ s ∧ b ≤ 0x20) ∨ (0x21 ≤ b ∧ b ≤ 0xFE) ∨ (∃ m, m < 243 ∧ b = trail_to_byte m) := by
    intro b hb
    obtain ⟨ch, hch, hbch⟩ := List.mem_flatten.mp hb
    rcases hshape ch hch with ⟨c, hcs, h20, he⟩ | ⟨b2, ts, he, hb1, hb2, htr⟩
    · rw [he] at hbch
      simp only [List.mem_singleton] at hbch
      subst hbch
      exact Or.inl ⟨hcs, h20⟩
    · rw [he] at hbch
      rcases List.mem_cons.mp hbch with h | h
      · subst h
        exact Or.inr (Or.inl ⟨hb1, hb2⟩)
      · exact Or.inr (Or.inr (htr b h))
  refine ⟨chs.flatten, pf, hbytes, ?_, ?_, ?_, ?_⟩
  · intro b hb
    rcases hclass b hb with ⟨_, h⟩ | ⟨_, h⟩ | ⟨m, hm, he⟩
    · omega
    · omega
    · have := (trail_to_byte_range hm).2
      omega
  · intro hz b hb
    rcases hclass b hb with ⟨hbs, _⟩ | ⟨h, _⟩ | ⟨m, hm, he⟩
    · intro h0
      exact hz (h0 ▸ hbs)
    · omega
    · have := (trail_to_byte_range hm).1
      omega
  · intro b hb hex
    rcases hclass b hb with ⟨hbs, h20⟩ | ⟨h1, h2⟩ | ⟨m, hm, he⟩
    · exact ⟨hbs, h20⟩
    · exact absurd hex (by unfold excludedCodeBytes; simp; omega)
    · exact absurd hex (he ▸ trail_to_byte_not_excluded hm)
  · intro c hcs h20
    have := hself c hcs h20
    exact List.mem_flatten.mpr ⟨[c], this, by simp⟩

/-! ## Packed scalar arithmetic -/

theorem pow256 (w : Nat) : 2 ^ (8 * w) = 256 ^ w := by
  rw [pow_mul]
  norm_num

theorem padShift_eq (w : Nat) : ∀ n tmp, tmp * 256 ^ n < 256 ^ w →
    padShift w tmp n = tmp * 256 ^ n := by
  intro n
  induction n with
  | zero => intro tmp h; simp [padShift]
  | succ n ih =>
    intro tmp h
    show padShift w (tmp * 256 % 2 ^ (8 * w)) n = tmp * 256 ^ (n + 1)
    have hpow : (0 : Nat) < 256 ^ n := Nat.pos_pow_of_pos n (by norm_num)
    have h2 : tmp * 256 * 256 ^ n < 256 ^ w := by
      calc tmp * 256 * 256 ^ n = tmp * 256 ^ (n + 1) := by ring
        _ < 256 ^ w := h
    have h3 : tmp * 256 < 256 ^ w := by
      have : tmp * 256 ≤ tmp * 256 * 256 ^ n := Nat.le_mul_of_pos_right _ hpow
      omega
    rw [pow256, Nat.mod_eq_of_lt h3, ih (tmp * 256) h2]
    ring

theorem packBytes_some_le (w : Nat) : ∀ (bs : List Nat) tmp n p,
    packBytes w tmp n bs = some p → bs.length ≤ n := by
  intro bs
  induction bs with
  | nil => intro tmp n p _; simp
  | cons b bs ih =>
    intro tmp n p h
    unfold packBytes at h
    split_ifs at h with h0
    have := ih _ _ _ h
    simp only [List.length_cons]
    omega

theorem packBytes_eq (w : Nat) : ∀ (bs : List Nat) tmp n, (∀ b ∈ bs, b < 256) →
    bs.length ≤ n → n ≤ w → tmp < 256 ^ (w - n) →
    packBytes w tmp n bs = some (bvAux tmp bs * 256 ^ (n - bs.length)) := by
  intro bs
  induction bs with
  | nil =>
    intro tmp n _ _ hnw htmp
    show some (padShift w tmp n) = some (bvAux tmp [] * 256 ^ (n - 0))
    have h1 : tmp * 256 ^ n < 256 ^ w := by
      calc tmp * 256 ^ n < 256 ^ (w - n) * 256 ^ n := by
            exact (Nat.mul_lt_mul_right (Nat.pos_pow_of_pos n (by norm_num))).mpr htmp
        _ = 256 ^ w := by rw [← pow_add]; congr 1; omega
    rw [padShift_eq w n tmp h1]
    rfl
  | cons b bs ih =>
    intro tmp n hb hlen hnw htmp
    cases n with
    | zero => simp at hlen
    | succ n =>
      show (if n + 1 = 0 then none
        else packBytes w ((tmp * 256 + b) % 2 ^ (8 * w)) (n + 1 - 1) bs) = _
      rw [if_neg (by omega)]
      have hbb : b < 256 := hb b (by simp)
      have htmp2 : tmp * 256 + b < 256 ^ (w - n) := by
        have e : 256 ^ (w - n) = 256 ^ (w - (n + 1)) * 256 := by
          rw [← pow_succ]
          congr 1
          omega
        have : tmp + 1 ≤ 256 ^ (w - (n + 1)) := htmp
        calc tmp * 256 + b < (tmp + 1) * 256 := by omega
          _ ≤ 256 ^ (w - (n + 1)) * 256 := Nat.mul_le_mul_right _ this
          _ = 256 ^ (w - n) := e.symm
      have hmod : (tmp * 256 + b) % 2 ^ (8 * w) = tmp * 256 + b := by
        rw [pow256]
        refine Nat.mod_eq_of_lt ?_
        calc tmp * 256 + b < 256 ^ (w - n) := htmp2
          _ ≤ 256 ^ w := Nat.pow_le_pow_right (by norm_num) (by omega)
      rw [show n + 1 - 1 = n from rfl, hmod,
        ih (tmp * 256 + b) n (fun x hx => hb x (by simp [hx])) (by simpa using hlen)
          (by omega) htmp2]
      simp only [List.length_cons, Nat.succ_sub_succ]
      rfl

theorem bvAux_append (tmp : Nat) (xs ys : List Nat) :
    bvAux tmp (xs ++ ys) = bvAux (bvAux tmp xs) ys := by
  unfold bvAux
  rw [List.foldl_append]

theorem bvAux_split : ∀ (bs : List Nat) tmp,
    bvAux tmp bs = tmp * 256 ^ bs.length + bvAux 0 bs := by
  intro bs
  induction bs with
  | nil => intro tmp; simp [bvAux]
  | cons b bs ih =>
    intro tmp
    show bvAux (tmp * 256 + b) bs = tmp * 256 ^ (b :: bs).length + bvAux (0 * 256 + b) bs
    rw [ih (tmp * 256 + b), ih (0 * 256 + b)]
    simp only [List.length_cons]
    ring

theorem bvAux_lt : ∀ (bs : List Nat), (∀ b ∈ bs, b < 256) →
    bvAux 0 bs < 256 ^ bs.length := by
  intro bs
  induction bs with
  | nil => intro _; simp [bvAux]
  | cons b bs ih =>
    intro hb
    show bvAux (0 * 256 + b) bs < 256 ^ (b :: bs).length
    rw [bvAux_split]
    have h1 := ih (fun x hx => hb x (by simp [hx]))
    have h2 : b < 256 := hb b (by simp)
    have h3 : (0 * 256 + b) * 256 ^ bs.length ≤ 255 * 256 ^ bs.length :=
      Nat.mul_le_mul_right _ (by omega)
    simp only [List.length_cons, pow_succ]
    omega

/-- The packed-value order lemma: a memcmp-smaller byte string of nonzero
bytes packs, left-aligned in `w` bytes, to a smaller scalar. -/
theorem bytesLt_val {l1 l2 : List Nat} (w : Nat) (h : BytesLt l1 l2)
    (hb1 : ∀ b ∈ l1, b < 256) (hb2 : ∀ b ∈ l2, b < 256) (hz2 : ∀ b ∈ l2, b ≠ 0)
    (hw1 : l1.length ≤ w) (hw2 : l2.length ≤ w) :
    bvAux 0 l1 * 256 ^ (w - l1.length) < bvAux 0 l2 * 256 ^ (w - l2.length) := by
  rcases h with ⟨r, hr, he⟩ | ⟨p, b1, b2, r1, r2, hb, e1, e2⟩
  · subst he
    obtain ⟨x, r2, rfl⟩ : ∃ x r2, r = x :: r2 := by
      cases r with
      | nil => exact absurd rfl hr
      | cons x t => exact ⟨x, t, rfl⟩
    have hx : 1 ≤ x := by
      have := hz2 x (by simp)
      omega
    rw [bvAux_append, bvAux_split (x :: r2) (bvAux 0 l1)]
    have e256 : 256 ^ (x :: r2).length * 256 ^ (w - (l1 ++ x :: r2).length) =
        256 ^ (w - l1.length) := by
      rw [← pow_add]
      congr 1
      simp only [List.length_append, List.length_cons] at *
      omega
    have hpos : 0 < bvAux 0 (x :: r2) := by
      rw [show bvAux 0 (x :: r2) = bvAux (0 * 256 + x) r2 from rfl, bvAux_split]
      have : 0 < 256 ^ r2.length := Nat.pos_pow_of_pos _ (by norm_num)
      have : 1 * 256 ^ r2.length ≤ (0 * 256 + x) * 256 ^ r2.length :=
        Nat.mul_le_mul_right _ (by omega)
      omega
    have hpos2 : 0 < 256 ^ (w - (l1 ++ x :: r2).length) :=
      Nat.pos_pow_of_pos _ (by norm_num)
    calc bvAux 0 l1 * 256 ^ (w - l1.length)
        = bvAux 0 l1 * (256 ^ (x :: r2).length * 256 ^ (w - (l1 ++ x :: r2).length)) := by
          rw [e256]
      _ < (bvAux 0 l1 * 256 ^ (x :: r2).length + bvAux 0 (x :: r2)) *
            256 ^ (w - (l1 ++ x :: r2).length) := by
          rw [Nat.add_mul]
          have hposmul : 0 < bvAux 0 (x :: r2) * 256 ^ (w - (l1 ++ x :: r2).length) :=
            Nat.mul_pos hpos hpos2
          rw [Nat.mul_assoc]
          exact Nat.lt_add_of_pos_right hposmul
  · subst e1
    subst e2
    rw [bvAux_append, bvAux_append, bvAux_split (b1 :: r1) (bvAux 0 p),
      bvAux_split (b2 :: r2) (bvAux 0 p), Nat.add_mul, Nat.add_mul]
    have ep1 : 256 ^ (b1 :: r1).length * 256 ^ (w - (p ++ b1 :: r1).length) =
        256 ^ (w - p.length) := by
      rw [← pow_add]
      congr 1
      simp only [List.length_append, List.length_cons] at *
      omega
    have ep2 : 256 ^ (b2 :: r2).length * 256 ^ (w - (p ++ b2 :: r2).length) =
        256 ^ (w - p.length) := by
      rw [← pow_add]
      congr 1
      simp only [List.length_append, List.length_cons] at *
      omega
    rw [Nat.mul_assoc, Nat.mul_assoc, ep1, ep2]
    have key : bvAux 0 (b1 :: r1) * 256 ^ (w - (p ++ b1 :: r1).length) <
        bvAux 0 (b2 :: r2) * 256 ^ (w - (p ++ b2 :: r2).length) := by
      have hr1 : bvAux 0 (b1 :: r1) < (b1 + 1) * 256 ^ r1.length := by
        rw [show bvAux 0 (b1 :: r1) = bvAux (0 * 256 + b1) r1 from rfl, bvAux_split]
        simp only [Nat.zero_mul, Nat.zero_add]
        have := bvAux_lt r1 (fun x hx => hb1 x (by simp [hx]))
        have hh : (b1 + 1) * 256 ^ r1.length = b1 * 256 ^ r1.length + 256 ^ r1.length := by
          ring
        omega
      have hr2 : b2 * 256 ^ r2.length ≤ bvAux 0 (b2 :: r2) := by
        rw [show bvAux 0 (b2 :: r2) = bvAux (0 * 256 + b2) r2 from rfl, bvAux_split]
        simp only [Nat.zero_mul, Nat.zero_add]
        omega
      have ee : r1.length + (w - (p ++ b1 :: r1).length) =
          r2.length + (w - (p ++ b2 :: r2).length) := by
        simp only [List.length_append, List.length_cons] at *
        omega
      calc bvAux 0 (b1 :: r1) * 256 ^ (w - (p ++ b1 :: r1).length)
          < (b1 + 1) * 256 ^ r1.length * 256 ^ (w - (p ++ b1 :: r1).length) := by
            exact (Nat.mul_lt_mul_right (Nat.pos_pow_of_pos _ (by norm_num))).mpr hr1
        _ = (b1 + 1) * 256 ^ (r1.length + (w - (p ++ b1 :: r1).length)) := by
            rw [Nat.mul_assoc, ← pow_add]
        _ ≤ b2 * 256 ^ (r1.length + (w - (p ++ b1 :: r1).length)) := by
            exact Nat.mul_le_mul_right _ (by omega)
        _ = b2 * (256 ^ r2.length * 256 ^ (w - (p ++ b2 :: r2).length)) := by
            rw [← pow_add, ee]
        _ = b2 * 256 ^ r2.length * 256 ^ (w - (p ++ b2 :: r2).length) := by
            rw [Nat.mul_assoc]
        _ ≤ bvAux 0 (b2 :: r2) * 256 ^ (w - (p ++ b2 :: r2).length) := by
            exact Nat.mul_le_mul_right _ hr2
    exact Nat.add_lt_add_left key _

/-! ## Small utilities for the claims -/

theorem decodeList_nil (f prev : Nat) : decodeList f prev [] = some (.ok []) := by
  cases f <;> rfl

theorem insertFFs_length : ∀ (ns : List Nat) (chs : List (List Nat)),
    (insertFFs ns chs).length = ns.sum + chs.flatten.length := by
  intro ns chs
  induction chs generalizing ns with
  | nil =>
    rw [insertFFs_nil_right]
    simp [ffs]
  | cons ch chs ih =>
    cases ns with
    | nil =>
      simp only [insertFFs, List.length_append, ih [], List.flatten_cons]
      simp
    | cons n ns =>
      simp only [insertFFs, List.length_append, ih ns, List.flatten_cons, List.sum_cons,
        ffs, List.length_replicate]
      omega

/-! ## The claims -/

/-- C1 (round-trip): for every sequence of Unicode scalar values, encoding
with a fresh codec (`prev = U+0040`) succeeds, and decoding the resulting
byte stream with a fresh codec yields exactly the original sequence. -/
theorem claim1_roundtrip (s : List Nat) (hv : ∀ c ∈ s, ScalarValue c) :
    ∃ bs pf, encodeSeq initialPreviousState s = some (bs, pf) ∧
      decodeSeq bs = some (.ok s) := by
  obtain ⟨bs, pf, he, _, hlen, hdec⟩ := encodeSeq_spec s initialPreviousState prevInv_initial hv
  refine ⟨bs, pf, he, ?_⟩
  unfold decodeSeq
  have h := hdec (bs.length - s.length) []
  rw [List.append_nil] at h
  rw [show bs.length = s.length + (bs.length - s.length) by omega, h, decodeList_nil,
    consAll_ok, List.append_nil]

/-- C1 witness: the round-trip theorem applied to the code points of
"hello". -/
theorem claim1_roundtrip_witness :
    (∀ c ∈ [0x68, 0x65, 0x6C, 0x6C, 0x6F], ScalarValue c) ∧
    ∃ bs pf, encodeSeq initialPreviousState [0x68, 0x65, 0x6C, 0x6C, 0x6F] = some (bs, pf) ∧
      decodeSeq bs = some (.ok [0x68, 0x65, 0x6C, 0x6C, 0x6F]) :=
  ⟨by decide, claim1_roundtrip [0x68, 0x65, 0x6C, 0x6C, 0x6F] (by decide)⟩

/-- C2 (lexicographic byte order): for every pair of scalar-value sequences,
both encodings from a fresh codec succeed, and the memcmp order of the byte
streams agrees with the lexicographic order of the sequences (strict order
and equality both transfer, which fixes the sign of the comparison). -/
theorem claim2_lex_order (s1 s2 : List Nat) (hv1 : ∀ c ∈ s1, ScalarValue c)
    (hv2 : ∀ c ∈ s2, ScalarValue c) :
    ∃ bs1 bs2, encodeTop s1 = some bs1 ∧ encodeTop s2 = some bs2 ∧
      (List.Lex (· < ·) s1 s2 ↔ List.Lex (· < ·) bs1 bs2) ∧
      (s1 = s2 ↔ bs1 = bs2) := by
  obtain ⟨bs1, pf1, he1, _, _, _⟩ := encodeSeq_spec s1 _ prevInv_initial hv1
  obtain ⟨bs2, pf2, he2, _, _, _⟩ := encodeSeq_spec s2 _ prevInv_initial hv2
  have key : List.Lex (· < ·) s1 s2 → BytesLt bs1 bs2 := by
    intro h
    obtain ⟨bs1a, p1a, bs2a, p2a, he1a, he2a, hlt⟩ :=
      encodeSeq_lex h _ prevInv_initial hv1 hv2
    have e1 : bs1 = bs1a := by
      have e := he1.symm.trans he1a
      simp only [Option.some.injEq, Prod.mk.injEq] at e
      exact e.1
    have e2 : bs2 = bs2a := by
      have e := he2.symm.trans he2a
      simp only [Option.some.injEq, Prod.mk.injEq] at e
      exact e.1
    rw [e1, e2]
    exact hlt
  have key2 : List.Lex (· < ·) s2 s1 → BytesLt bs2 bs1 := by
    intro h
    obtain ⟨bs2a, p2a, bs1a, p1a, he2a, he1a, hlt⟩ :=
      encodeSeq_lex h _ prevInv_initial hv2 hv1
    have e1 : bs1 = bs1a := by
      have e := he1.symm.trans he1a
      simp only [Option.some.injEq, Prod.mk.injEq] at e
      exact e.1
    have e2 : bs2 = bs2a := by
      have e := he2.symm.trans he2a
      simp only [Option.some.injEq, Prod.mk.injEq] at e
      exact e.1
    rw [e1, e2]
    exact hlt
  have keyeq : s1 = s2 → bs1 = bs2 := by
    intro h
    subst h
    have e := he1.symm.trans he2
    simp only [Option.some.injEq, Prod.mk.injEq] at e
    exact e.1
  refine ⟨bs1, bs2, by simp [encodeTop, he1], by simp [encodeTop, he2], ?_, ?_⟩
  · constructor
    · intro h
      exact bytesLt_lex (key h)
    · intro h
      rcases lex_trichotomy s1 s2 with ht | ht | ht
      · exact ht
      · exact absurd (keyeq ht ▸ h) (lex_irrefl _)
      · exact absurd h (fun hh => lex_asymm _ _ hh (bytesLt_lex (key2 ht)))
  · constructor
    · exact keyeq
    · intro h
      rcases lex_trichotomy s1 s2 with ht | ht | ht
      · exact absurd h (bytesLt_ne (key ht))
      · exact ht
      · exact absurd h.symm (bytesLt_ne (key2 ht))

/-- C2 witness: the order theorem applied to the one-character sequences
"a" and "b". -/
theorem claim2_lex_order_witness :
    (∀ c ∈ [0x61], ScalarValue c) ∧ (∀ c ∈ [0x62], ScalarValue c) ∧
    ∃ bs1 bs2, encodeTop [0x61] = some bs1 ∧ encodeTop [0x62] = some bs2 ∧
      (List.Lex (· < ·) [0x61] [0x62] ↔ List.Lex (· < ·) bs1 bs2) ∧
      (([0x61] : List Nat) = [0x62] ↔ bs1 = bs2) :=
  ⟨by decide, by decide, claim2_lex_order [0x61] [0x62] (by decide) (by decide)⟩

/-- C3 (code behaviour at the reset byte): `decode_char` on a slice whose
first byte is `0xFF` returns `(None, rest)` but leaves `prev` unchanged —
it does NOT reset `prev` to U+0040 as the specification claims.  For any
`prev ≠ U+0040` (e.g. `prev = U+0100`) the state after the call still
differs from U+0040. -/
theorem claim3_reset_keeps_prev :
    (∀ prev rest, decode_char prev 0xFF rest = some (prev, .ok (none, rest))) ∧
    decode_char 0x100 0xFF [] = some (0x100, .ok (none, [])) ∧ (0x100 : Nat) ≠ 0x40 :=
  ⟨fun _ _ => rfl, rfl, by decide⟩

/-- C4 counterexample: inserting a `0xFF` byte at an arbitrary position —
here inside the two-byte chunk `D0 8D` that encodes U+0100 — changes the
decoded sequence, because `0xFF` is a valid trail byte. -/
theorem claim4_counterexample :
    encodeTop [0x100] = some [0xD0, 0x8D] ∧
    decodeSeq [0xD0, 0x8D] = some (.ok [0x100]) ∧
    decodeSeq ([0xD0] ++ [0xFF] ++ [0x8D]) = some (.ok [0x172, 0x13D]) ∧
    decodeSeq ([0xD0] ++ [0xFF] ++ [0x8D]) ≠ decodeSeq [0xD0, 0x8D] := by
  refine ⟨by decide, by decide, by decide, by decide⟩

/-- C4 as amended (reset idempotence at chunk boundaries): inserting any
number of `0xFF` reset bytes between the chunks of an encoded stream (before
any chunk or after the last) does not change the decoded code-point
sequence. -/
theorem claim4_reset_idempotent (s : List Nat) (hv : ∀ c ∈ s, ScalarValue c) :
    ∃ chs pf, chunkSeq initialPreviousState s = some (chs, pf) ∧
      ∀ ns, decodeSeq (insertFFs ns chs) = some (.ok s) := by
  obtain ⟨chs, pf, hchs, _, _, hcount, hshape, _, hdecode⟩ :=
    chunkSeq_spec s _ prevInv_initial hv
  refine ⟨chs, pf, hchs, ?_⟩
  intro ns
  have hne : ∀ ch ∈ chs, ch ≠ [] := by
    intro ch hch
    rcases hshape ch hch with ⟨c, _, _, he⟩ | ⟨b, ts, he, _⟩ <;> simp [he]
  have hflat := length_le_flatten hne
  have hlen : s.length + ns.sum ≤ (insertFFs ns chs).length := by
    rw [insertFFs_length]
    omega
  unfold decodeSeq
  have h := hdecode ns ((insertFFs ns chs).length - (s.length + ns.sum)) []
  rw [List.append_nil] at h
  rw [show (insertFFs ns chs).length =
      s.length + ns.sum + ((insertFFs ns chs).length - (s.length + ns.sum)) by omega, h,
    decodeList_nil, consAll_ok, List.append_nil]

/-- C4 witness: the amended theorem applied to the single character "A". -/
theorem claim4_reset_idempotent_witness :
    (∀ c ∈ [0x41], ScalarValue c) ∧
    ∃ chs pf, chunkSeq initialPreviousState [0x41] = some (chs, pf) ∧
      ∀ ns, decodeSeq (insertFFs ns chs) = some (.ok [0x41]) :=
  ⟨by decide, claim4_reset_idempotent [0x41] (by decide)⟩

/-- C5 counterexample: the encoder does emit the byte `0xFF` — as a trail
byte.  The sequence ⟨U+0180, U+017F⟩ (which does not contain U+00FF) encodes
to `D1 17 4F FF`. -/
theorem claim5_counterexample :
    (∀ c ∈ [0x180, 0x17F], ScalarValue c) ∧
    encodeTop [0x180, 0x17F] = some [0xD1, 0x17, 0x4F, 0xFF] ∧
    0xFF ∈ [0xD1, 0x17, 0x4F, 0xFF] ∧ (0xFF : Nat) ∉ [0x180, 0x17F] := by
  refine ⟨by decide, by decide, by decide, by decide⟩

/-- C5 as amended (forbidden bytes absent): no byte of an encoded stream
lies in {0x00, 0x07..0x0F, 0x1A, 0x1B} unless the same-valued code point
occurs in the input; the byte 0x20 appears iff U+0020 occurs in the input;
and `0xFF` is never the lead (first) byte of any emitted chunk (though it
can occur as a trail byte). -/
theorem claim5_forbidden_bytes (s : List Nat) (hv : ∀ c ∈ s, ScalarValue c) :
    ∃ bs pf chs, encodeSeq initialPreviousState s = some (bs, pf) ∧
      chunkSeq initialPreviousState s = some (chs, pf) ∧
      (∀ b ∈ bs, b ∈ excludedCodeBytes → b ≠ 0x20 → b ∈ s) ∧
      (0x20 ∈ bs ↔ 0x20 ∈ s) ∧
      (∀ ch ∈ chs, ∀ hd, ch.head? = some hd → hd ≠ 0xFF) := by
  obtain ⟨chs, pf, hchs, _, hbytes, hcount, hshape, hself, _⟩ :=
    chunkSeq_spec s _ prevInv_initial hv
  obtain ⟨bs2, pf2, he2, _, _, hex2, hsp2⟩ := encodeSeq_bytes s _ prevInv_initial hv
  have e : bs2 = chs.flatten := by
    have e := he2.symm.trans hbytes
    simp only [Option.some.injEq, Prod.mk.injEq] at e
    exact e.1
  subst e
  refine ⟨chs.flatten, pf, chs, hbytes, hchs, ?_, ?_, ?_⟩
  · intro b hb hex _
    exact (hex2 b hb hex).1
  · constructor
    · intro h
      exact (hex2 0x20 h (by unfold excludedCodeBytes; simp)).1
    · intro h
      exact hsp2 0x20 h (le_refl _)
  · intro ch hch hd hhd
    rcases hshape ch hch with ⟨c, _, h20, he⟩ | ⟨b, ts, he, hb1, hb2, _⟩
    · rw [he] at hhd
      simp only [List.head?_cons, Option.some.injEq] at hhd
      omega
    · rw [he] at hhd
      simp only [List.head?_cons, Option.some.injEq] at hhd
      omega

/-- C5 witness: the amended theorem applied to ⟨U+0180, U+017F⟩. -/
theorem claim5_forbidden_bytes_witness :
    (∀ c ∈ [0x180, 0x17F], ScalarValue c) ∧
    ∃ bs pf chs, encodeSeq initialPreviousState [0x180, 0x17F] = some (bs, pf) ∧
      chunkSeq initialPreviousState [0x180, 0x17F] = some (chs, pf) ∧
      (∀ b ∈ bs, b ∈ excludedCodeBytes → b ≠ 0x20 → b ∈ [0x180, 0x17F]) ∧
      (0x20 ∈ bs ↔ 0x20 ∈ [0x180, 0x17F]) ∧
      (∀ ch ∈ chs, ∀ hd, ch.head? = some hd → hd ≠ 0xFF) :=
  ⟨by decide, claim5_forbidden_bytes [0x180, 0x17F] (by decide)⟩

/-- C6 counterexample: for `delta = -0x41` the selected row has offset
`-0x40`, so `d = delta - offset = -1` is negative, and on that value the
Euclidean modulus/division used by the loop differ from Rust's truncating
`%` and `/`. -/
theorem claim6_counterexample :
    encode_row (-0x41) = some (-0x40, 0x50, 2) ∧
    (-0x41 : Int) - (-0x40) < 0 ∧
    mod_euc ((-0x41 : Int) - (-0x40)) nTrailValues ≠
      Int.tmod ((-0x41 : Int) - (-0x40)) nTrailValues ∧
    div_euc ((-0x41 : Int) - (-0x40)) nTrailValues ≠
      Int.tdiv ((-0x41 : Int) - (-0x40)) nTrailValues := by
  refine ⟨by decide, by decide, by decide, by decide⟩

/-- C6 as amended: after row selection, `d = delta - offset` is non-negative
exactly for the non-negative-delta rows (`delta ≥ 0x40`; the single-byte row
`-0x40 ≤ delta ≤ 0x3F` has `len = 1` and runs no trail-digit loop), while
for every negative row (`delta ≤ -0x41`) it is negative; on non-negative
values the Euclidean helpers do coincide with truncating division and
modulus and the quotient stays non-negative. -/
theorem claim6_offset_sign (delta offset : Int) (lead len : Nat)
    (h : encode_row delta = some (offset, lead, len)) :
    (0x40 ≤ delta → 0 ≤ delta - offset) ∧
    (delta ≤ -0x41 → delta - offset < 0) ∧
    (-0x40 ≤ delta ∧ delta ≤ 0x3F → len = 1) ∧
    (∀ d : Int, 0 ≤ d →
      div_euc d nTrailValues = d.tdiv nTrailValues ∧
      mod_euc d nTrailValues = d.tmod nTrailValues ∧
      0 ≤ div_euc d nTrailValues) := by
  have key : (0x40 ≤ delta → 0 ≤ delta - offset) ∧ (delta ≤ -0x41 → delta - offset < 0) ∧
      ((-0x40 ≤ delta ∧ delta ≤ 0x3F) → len = 1) := by
    unfold encode_row at h
    split_ifs at h <;> simp at h <;>
      exact ⟨fun hh => by omega, fun hh => by omega, fun hh => by omega⟩
  refine ⟨key.1, key.2.1, key.2.2, ?_⟩
  intro d hd
  have hmod0 : 0 ≤ d.tmod nTrailValues := by
    rw [nTrailValues_eq]
    exact Int.tmod_nonneg _ hd
  refine ⟨?_, ?_, ?_⟩
  · dsimp only [div_euc]
    rw [if_neg (by omega)]
  · dsimp only [mod_euc]
    rw [if_neg (by omega)]
  · rw [div_euc_eq]
    omega

/-- C6 witness: the amended theorem applied to `delta = 0x40` (row
`(0x40, 0xD0, 2)`). -/
theorem claim6_offset_sign_witness :
    encode_row 0x40 = some (0x40, 0xD0, 2) ∧
    ((0x40 ≤ (0x40 : Int) → 0 ≤ (0x40 : Int) - 0x40) ∧
     ((0x40 : Int) ≤ -0x41 → (0x40 : Int) - 0x40 < 0) ∧
     (-0x40 ≤ (0x40 : Int) ∧ (0x40 : Int) ≤ 0x3F → (2 : Nat) = 1) ∧
     (∀ d : Int, 0 ≤ d →
       div_euc d nTrailValues = d.tdiv nTrailValues ∧
       mod_euc d nTrailValues = d.tmod nTrailValues ∧
       0 ≤ div_euc d nTrailValues)) :=
  ⟨by decide, claim6_offset_sign 0x40 0x40 0xD0 2 (by decide)⟩

/-- C7 (trailing-byte mapping): `trail_to_byte` realises the four spans of
the table (`+1`, `+10`, `+12`, `+13`), is strictly monotonic, is inverted
exactly by `byte_to_trail`, and `byte_to_trail` returns the
`TrailByteOutOfRange` error precisely on the 13 excluded bytes. -/
theorem claim7_trail_mapping (b y : Nat) (hb : b < 243) (hy : y < 256) :
    (b ≤ 0x05 → trail_to_byte b = b + 1) ∧
    (0x06 ≤ b ∧ b ≤ 0x0F → trail_to_byte b = b + 10) ∧
    (0x10 ≤ b ∧ b ≤ 0x13 → trail_to_byte b = b + 12) ∧
    (0x14 ≤ b → trail_to_byte b = b + 13) ∧
    (∀ b2, b < b2 → b2 < 243 → trail_to_byte b < trail_to_byte b2) ∧
    byte_to_trail (trail_to_byte b) = .ok b ∧
    (byte_to_trail y = .error (.TrailByteOutOfRange y) ↔ y ∈ excludedCodeBytes) ∧
    (∀ t, byte_to_trail y = .ok t → trail_to_byte t = y) := by
  refine ⟨?_, ?_, ?_, ?_, ?_, byte_to_trail_trail_to_byte hb, ?_, ?_⟩
  · intro h
    unfold trail_to_byte
    split_ifs <;> omega
  · intro h
    unfold trail_to_byte
    split_ifs <;> omega
  · intro h
    unfold trail_to_byte
    split_ifs <;> omega
  · intro h
    unfold trail_to_byte
    split_ifs <;> omega
  · intro b2 h1 _
    exact trail_to_byte_mono h1
  · unfold byte_to_trail excludedCodeBytes
    split_ifs <;> simp <;> omega
  · intro t ht
    unfold byte_to_trail at ht
    split_ifs at ht <;>
      first
        | (injection ht with h
           subst h
           unfold trail_to_byte
           split_ifs <;> omega)
        | exact Except.noConfusion ht

/-- C7 witness: the mapping theorem applied to trail value 100 and byte
0x1A. -/
theorem claim7_trail_mapping_witness :
    (100 < 243 ∧ 0x1A < 256) ∧
    ((100 ≤ 0x05 → trail_to_byte 100 = 100 + 1) ∧
     (0x06 ≤ 100 ∧ 100 ≤ 0x0F → trail_to_byte 100 = 100 + 10) ∧
     (0x10 ≤ 100 ∧ 100 ≤ 0x13 → trail_to_byte 100 = 100 + 12) ∧
     (0x14 ≤ 100 → trail_to_byte 100 = 100 + 13) ∧
     (∀ b2, 100 < b2 → b2 < 243 → trail_to_byte 100 < trail_to_byte b2) ∧
     byte_to_trail (trail_to_byte 100) = .ok 100 ∧
     (byte_to_trail 0x1A = .error (.TrailByteOutOfRange 0x1A) ↔
       0x1A ∈ excludedCodeBytes) ∧
     (∀ t, byte_to_trail 0x1A = .ok t → trail_to_byte t = 0x1A)) :=
  ⟨⟨by decide, by decide⟩, claim7_trail_mapping 100 0x1A (by decide) (by decide)⟩

/-- C8 (self-encoded ASCII): every code point `c ≤ U+0020` encodes as the
single byte `c`; the state becomes U+0040 when `c < U+0020` and is left
unchanged when `c = U+0020`. -/
theorem claim8_self_encoded (prev c : Nat) (h : c ≤ 0x20) :
    encode_char prev c = some ([c], if c = 0x20 then prev else 0x40) := by
  unfold encode_char asciiSp initialPreviousState
  rw [if_pos (by omega)]
  simp [ite_not]

/-- C8 witness: encoding a space from state `prev = 0x77` keeps the state;
(the hypothesis `0x20 ≤ 0x20` is discharged at the concrete input). -/
theorem claim8_self_encoded_witness :
    (0x20 : Nat) ≤ 0x20 ∧
    encode_char 0x77 0x20 = some ([0x20], if (0x20 : Nat) = 0x20 then 0x77 else 0x40) :=
  ⟨by decide, claim8_self_encoded 0x77 0x20 (by decide)⟩

/-- C9 (packed lexicographic order): for scalar sequences without U+0000
whose encodings fit in a `w`-byte unsigned scalar, `pack` succeeds and
unsigned comparison of the packed values agrees with lexicographic
comparison of the sequences (strict order and equality both transfer). -/
theorem claim9_packed_order (w : Nat) (s1 s2 : List Nat)
    (hv1 : ∀ c ∈ s1, ScalarValue c) (hv2 : ∀ c ∈ s2, ScalarValue c)
    (hz1 : 0 ∉ s1) (hz2 : 0 ∉ s2) (p1 p2 : Nat)
    (hp1 : pack w s1 = some p1) (hp2 : pack w s2 = some p2) :
    (List.Lex (· < ·) s1 s2 ↔ p1 < p2) ∧ (s1 = s2 ↔ p1 = p2) := by
  obtain ⟨bs1, pf1, he1, hb1, hnz1, _, _⟩ := encodeSeq_bytes s1 _ prevInv_initial hv1
  obtain ⟨bs2, pf2, he2, hb2, hnz2, _, _⟩ := encodeSeq_bytes s2 _ prevInv_initial hv2
  unfold pack at hp1 hp2
  rw [he1] at hp1
  rw [he2] at hp2
  dsimp only at hp1 hp2
  have hlen1 : bs1.length ≤ w := packBytes_some_le w bs1 0 w p1 hp1
  have hlen2 : bs2.length ≤ w := packBytes_some_le w bs2 0 w p2 hp2
  have hv1' : p1 = bvAux 0 bs1 * 256 ^ (w - bs1.length) := by
    rw [packBytes_eq w bs1 0 w hb1 hlen1 (le_refl w) (by simp)] at hp1
    simpa using hp1.symm
  have hv2' : p2 = bvAux 0 bs2 * 256 ^ (w - bs2.length) := by
    rw [packBytes_eq w bs2 0 w hb2 hlen2 (le_refl w) (by simp)] at hp2
    simpa using hp2.symm
  have key : List.Lex (· < ·) s1 s2 → p1 < p2 := by
    intro h
    obtain ⟨bs1a, p1a, bs2a, p2a, he1a, he2a, hlt⟩ :=
      encodeSeq_lex h _ prevInv_initial hv1 hv2
    have e1 : bs1 = bs1a := by
      have e := he1.symm.trans he1a
      simp only [Option.some.injEq, Prod.mk.injEq] at e
      exact e.1
    have e2 : bs2 = bs2a := by
      have e := he2.symm.trans he2a
      simp only [Option.some.injEq, Prod.mk.injEq] at e
      exact e.1
    rw [hv1', hv2']
    exact bytesLt_val w (e1 ▸ e2 ▸ hlt) hb1 hb2 (hnz2 hz2) hlen1 hlen2
  have key2 : List.Lex (· < ·) s2 s1 → p2 < p1 := by
    intro h
    obtain ⟨bs2a, p2a, bs1a, p1a, he2a, he1a, hlt⟩ :=
      encodeSeq_lex h _ prevInv_initial hv2 hv1
    have e1 : bs1 = bs1a := by
      have e := he1.symm.trans he1a
      simp only [Option.some.injEq, Prod.mk.injEq] at e
      exact e.1
    have e2 : bs2 = bs2a := by
      have e := he2.symm.trans he2a
      simp only [Option.some.injEq, Prod.mk.injEq] at e
      exact e.1
    rw [hv1', hv2']
    exact bytesLt_val w (e1 ▸ e2 ▸ hlt) hb2 hb1 (hnz1 hz1) hlen2 hlen1
  have keyeq : s1 = s2 → p1 = p2 := by
    intro h
    subst h
    have e := he1.symm.trans he2
    simp only [Option.some.injEq, Prod.mk.injEq] at e
    rw [hv1', hv2', e.1]
  constructor
  · constructor
    · exact key
    · intro h
      rcases lex_trichotomy s1 s2 with ht | ht | ht
      · exact ht
      · exact absurd h (by rw [keyeq ht]; omega)
      · exact absurd h (by have := key2 ht; omega)
  · constructor
    · exact keyeq
    · intro h
      rcases lex_trichotomy s1 s2 with ht | ht | ht
      · exact absurd h (by have := key ht; omega)
      · exact ht
      · exact absurd h (by have := key2 ht; omega)

/-- C9 witness: the packed order theorem applied to "h" and "i" packed into
a 64-bit (8-byte) scalar. -/
theorem claim9_packed_order_witness :
    ((∀ c ∈ [0x68], ScalarValue c) ∧ (∀ c ∈ [0x69], ScalarValue c) ∧
     (0 : Nat) ∉ [0x68] ∧ (0 : Nat) ∉ [0x69] ∧
     pack 8 [0x68] = some 0xB800000000000000 ∧ pack 8 [0x69] = some 0xB900000000000000) ∧
    (List.Lex (· < ·) [0x68] [0x69] ↔ 0xB800000000000000 < 0xB900000000000000) ∧
    (([0x68] : List Nat) = [0x69] ↔ (0xB800000000000000 : Nat) = 0xB900000000000000) :=
  ⟨⟨by decide, by decide, by decide, by decide, by decide, by decide⟩,
    claim9_packed_order 8 [0x68] [0x69] (by decide) (by decide) (by decide) (by decide)
      0xB800000000000000 0xB900000000000000 (by decide) (by decide)⟩

/-- C10 (error atomicity): whenever `decode_char` returns an error, the
`prev` state it hands back is the original one, and one `next` step of the
result iterator surfaces the error without consuming any input. -/
theorem claim10_error_atomic (prev b : Nat) (bs : List Nat) (pA : Nat) (e : DecodeError)
    (h : decode_char prev b bs = some (pA, .error e)) :
    pA = prev ∧
    resultIterNext (bs.length + 1) prev (b :: bs) =
      some (prev, b :: bs, some (.error e)) := by
  have hp : pA = prev := by
    unfold decode_char at h
    split_ifs at h with g1 g2 g3
    · simp at h
    · simp at h
    · simp at h
    · rcases hd : decode_delta b bs with _ | res
      · rw [hd] at h
        simp at h
      · rw [hd] at h
        rcases res with e1 | ⟨delta, rest2⟩
        · simp only [Option.some.injEq, Prod.mk.injEq] at h
          exact h.1.symm
        · dsimp only at h
          rcases hc : char_from_u32 ((prev : Int) + delta) with _ | ch
          · rw [hc] at h
            simp only [Option.some.injEq, Prod.mk.injEq] at h
            exact h.1.symm
          · rw [hc] at h
            simp at h
  refine ⟨hp, ?_⟩
  subst hp
  simp only [resultIterNext, h]

/-- C10 witness: a truncated two-byte chunk (`lead 0x25`, no trail byte)
from a fresh decoder. -/
theorem claim10_error_atomic_witness :
    decode_char 0x40 0x25 [] = some (0x40, .error .TruncatedInput) ∧
    ((0x40 : Nat) = 0x40 ∧
     resultIterNext ((List.length ([] : List Nat)) + 1) 0x40 [0x25] =
       some (0x40, [0x25], some (.error DecodeError.TruncatedInput))) :=
  ⟨by decide, claim10_error_atomic 0x40 0x25 [] 0x40 .TruncatedInput (by decide)⟩

end Bocu1
